import Mathlib

/-!
Verification of the JPS (jump point search) core of the hex-caves repository,
file `src/hexadventure/src/astar.rs`.

The search algorithm itself (`jps`, `for_each_neighbor`, `for_each_leaf_neighbor`,
`is_forced`, `neighbor_of`, `construct_path`) is translated from the source.
The geometry primitives (`Pos`, `Direction`, `DIRECTIONS`, `distance`,
`decompose`) and the priority queue (`MinHeap`) live in repository modules that
are not part of the sources at hand; they are modelled from the specification.

The unbounded `for len in 1..` scan loops and the `while let` driver loop are
embedded with an explicit fuel parameter: a result of `none` means the fuel ran
out (the corresponding Rust loop has not yet exited), `some r` means the Rust
code returns `r` (where `r : Option (List Pos)` is the search result itself).
-/

/-- Modelled from the spec: the repository's grid module is not under `src/`.
A position is a pair of signed integers with component-wise arithmetic. -/
structure Pos where
  x : Int
  y : Int
  deriving DecidableEq, Repr

instance : Add Pos := ⟨fun a b => ⟨a.x + b.x, a.y + b.y⟩⟩

instance : Sub Pos := ⟨fun a b => ⟨a.x - b.x, a.y - b.y⟩⟩

/-- Modelled from the spec: the diagonal (Chebyshev) distance matching the
eight allowed unit moves. -/
def Pos.distance (a b : Pos) : Nat :=
  max (a.x - b.x).natAbs (a.y - b.y).natAbs

/-- Modelled from the spec: the 8-valued direction enumeration
(N, NE, E, SE, S, SW, W, NW equivalent). -/
inductive Direction
  | north
  | northeast
  | east
  | southeast
  | south
  | southwest
  | west
  | northwest
  deriving DecidableEq, Repr

/-- Modelled from the spec: the eight directions, the payload of the
`DIRECTIONS` constant of the grid module. -/
def DIRECTIONS : List Direction :=
  [.north, .northeast, .east, .southeast, .south, .southwest, .west, .northwest]

/-- Index of a direction, in clockwise order starting at north. -/
def Direction.toIdx : Direction → Fin 8
  | .north => 0
  | .northeast => 1
  | .east => 2
  | .southeast => 3
  | .south => 4
  | .southwest => 5
  | .west => 6
  | .northwest => 7

def Direction.ofIdx (i : Fin 8) : Direction :=
  DIRECTIONS.getD i.val Direction.north

/-- Modelled from the spec: rotation by `n` steps of 45 degrees, clockwise for
positive `n`; rotation is closed over the eight-element set. -/
def Direction.rotate (d : Direction) (n : Int) : Direction :=
  Direction.ofIdx ⟨(((d.toIdx.val : Int) + n).emod 8).toNat, by
    have h1 : (0 : Int) ≤ ((d.toIdx.val : Int) + n).emod 8 :=
      Int.emod_nonneg _ (by norm_num)
    have h2 : ((d.toIdx.val : Int) + n).emod 8 < 8 :=
      Int.emod_lt_of_pos _ (by norm_num)
    omega⟩

/-- Modelled from the spec: a direction as a unit vector (y grows northward,
x grows eastward; clockwise rotation by one step turns north into northeast). -/
def Direction.toVec : Direction → Pos
  | .north => ⟨0, 1⟩
  | .northeast => ⟨1, 1⟩
  | .east => ⟨1, 0⟩
  | .southeast => ⟨1, -1⟩
  | .south => ⟨0, -1⟩
  | .southwest => ⟨-1, -1⟩
  | .west => ⟨-1, 0⟩
  | .northwest => ⟨-1, 1⟩

/-- Modelled from the spec: scalar multiplication of a direction,
`direction * len` in the source. -/
def Direction.scale (d : Direction) (n : Int) : Pos :=
  ⟨d.toVec.x * n, d.toVec.y * n⟩

/-- Chirality, from `astar.rs`: clockwise or counterclockwise. -/
inductive Chirality
  | clockwise
  | counterclockwise
  deriving DecidableEq, Repr

/-- `Chirality::rotate` from `astar.rs`: apply `direction.rotate(n)` for
clockwise and `direction.rotate(-n)` for counterclockwise. -/
def Chirality.rotate : Chirality → Direction → Int → Direction
  | .clockwise, d, n => d.rotate n
  | .counterclockwise, d, n => d.rotate (-n)

/-- Modelled from the spec: decompose a vector into components along two
directions (`decompose` of the grid module): the unique integer solution of
`v = stem * s + leaf * l` by Cramer's rule when the two directions are
linearly independent, `(0, 0)` otherwise. -/
def decompose (v : Pos) (stem leaf : Direction) : Int × Int :=
  let a := stem.toVec
  let b := leaf.toVec
  let det := a.x * b.y - a.y * b.x
  if det = 0 then (0, 0)
  else ((v.x * b.y - v.y * b.x) / det, (a.x * v.y - a.y * v.x) / det)

/-- Modelled from the spec: the minheap module is not under `src/`. A
min-priority queue over payloads keyed by a numeric priority, allowing multiple
entries for one logical node. Represented as the list of entries in insertion
order; among equal minimal priorities `pop` takes the earliest inserted. -/
abbrev MinHeap (α : Type) : Type := List (α × Nat)

def MinHeap.push {α : Type} (h : MinHeap α) (x : α) (p : Nat) : MinHeap α :=
  h ++ [(x, p)]

def MinHeap.pop {α : Type} : MinHeap α → Option ((α × Nat) × MinHeap α)
  | [] => none
  | (a, p) :: rest =>
    match MinHeap.pop rest with
    | none => some ((a, p), [])
    | some ((b, q), rest') =>
      if p ≤ q then some ((a, p), rest) else some ((b, q), (a, p) :: rest')

/-- `JumpPoint` from `astar.rs`. -/
structure JumpPoint where
  pos : Pos
  direction : Direction
  chirality : Chirality
  deriving DecidableEq, Repr

/-- `OpenNode` from `astar.rs`: the payload of the priority queue. -/
inductive OpenNode
  | goal (pos : Pos)
  | jumpPoint (jp : JumpPoint)
  deriving DecidableEq, Repr

/-- `OpenNode::pos` from `astar.rs`. -/
def OpenNode.pos : OpenNode → Pos
  | .goal p => p
  | .jumpPoint jp => jp.pos

/-- `OpenNode::initial` from `astar.rs`: an initial jump point at the origin;
`flip` selects the shared chirality. -/
def OpenNode.initial (pos : Pos) (direction : Direction) (flip : Bool) : OpenNode :=
  .jumpPoint ⟨pos, direction, if flip then .counterclockwise else .clockwise⟩

/-- `JumpPoint::neighbor_of` from `astar.rs`. -/
def JumpPoint.neighbor_of (pos : Pos) (old_direction : Direction)
    (new_chirality : Chirality) : JumpPoint :=
  ⟨pos, new_chirality.rotate old_direction (-1), new_chirality⟩

/-- `JumpPoint::is_forced` from `astar.rs`: the corner cell
`pos + chirality.rotate(direction, -1)` is impassable while the cell straight
ahead `pos + direction` is passable. -/
def JumpPoint.is_forced (jp : JumpPoint) (passable : Pos → Bool) : Bool :=
  let corner := jp.pos + (jp.chirality.rotate jp.direction (-1)).toVec
  !passable corner && passable (jp.pos + jp.direction.toVec)

/-- `for_each_leaf_neighbor` from `astar.rs`, with the emitted nodes collected
into a list (the source invokes a callback per node, in this order). `len` is
the current scan offset (the source starts at 1), `fuel` bounds the remaining
iterations of the source's unbounded `for len in 1..` loop: `none` means the
loop has not exited within `fuel` iterations. -/
def for_each_leaf_neighbor (is_goal passable : Pos → Bool) (root : Pos)
    (direction : Direction) : Nat → Nat → Option (List OpenNode)
  | 0, _ => none
  | fuel + 1, len =>
    let pos := root + direction.scale (len : Int)
    match passable pos, is_goal pos with
    | false, _ => some []
    | true, true => some [OpenNode.goal pos]
    | true, false =>
      let neighbor1 := JumpPoint.neighbor_of pos direction Chirality.clockwise
      let neighbor2 := JumpPoint.neighbor_of pos direction Chirality.counterclockwise
      let here :=
        (if neighbor1.is_forced passable then [OpenNode.jumpPoint neighbor1] else []) ++
        (if neighbor2.is_forced passable then [OpenNode.jumpPoint neighbor2] else [])
      (for_each_leaf_neighbor is_goal passable root direction fuel (len + 1)).map
        (fun rest => here ++ rest)

/-- The stem loop of `JumpPoint::for_each_neighbor` from `astar.rs`, starting
at offset `len` with `fuel` remaining stem iterations; each stem cell runs a
leaf scan with fuel `leafFuel`. -/
def JumpPoint.for_each_neighbor_from (jp : JumpPoint) (is_goal passable : Pos → Bool)
    (leafFuel : Nat) : Nat → Nat → Option (List OpenNode)
  | 0, _ => none
  | fuel + 1, len =>
    let pos := jp.pos + jp.direction.scale (len : Int)
    match passable pos, is_goal pos with
    | false, _ => some []
    | true, true => some [OpenNode.goal pos]
    | true, false =>
      let neighbor := JumpPoint.neighbor_of pos jp.direction jp.chirality
      let turn := if neighbor.is_forced passable then [OpenNode.jumpPoint neighbor] else []
      match for_each_leaf_neighbor is_goal passable pos
          (jp.chirality.rotate jp.direction 1) leafFuel 1 with
      | none => none
      | some leafNodes =>
        (jp.for_each_neighbor_from is_goal passable leafFuel fuel (len + 1)).map
          (fun rest => turn ++ leafNodes ++ rest)

/-- `JumpPoint::for_each_neighbor` from `astar.rs`: scan forward along the stem
direction; at each passable non-goal cell emit the turn neighbor when forced and
then the leaf-scan emissions; stop at the first impassable or goal cell. -/
def JumpPoint.for_each_neighbor (jp : JumpPoint) (is_goal passable : Pos → Bool)
    (fuel : Nat) : Option (List OpenNode) :=
  jp.for_each_neighbor_from is_goal passable fuel fuel 1

/-- `construct_path` from `astar.rs`: walk the parent chain from `goal`,
expanding each L-shaped link (leaf run in descending offset, then stem run in
descending offset), until a position with no parent is reached. `fuel` bounds
the iterations of the source's `while let` loop. (The source also takes a
`total_cost` argument used only to pre-size the vector; it is dropped here.) -/
def construct_path (parents : Pos → Option JumpPoint) : Nat → Pos → Option (List Pos)
  | 0, _ => none
  | fuel + 1, pos =>
    match parents pos with
    | none => some []
    | some jp =>
      let parent_pos := jp.pos
      let stem_direction := jp.direction
      let leaf_direction := jp.chirality.rotate stem_direction 1
      let sl := decompose (pos - parent_pos) stem_direction leaf_direction
      let stem_cost := sl.1
      let leaf_cost := sl.2
      let stem_tip := parent_pos + stem_direction.scale stem_cost
      let leafRun := (List.range leaf_cost.toNat).reverse.map
        (fun i : Nat => stem_tip + leaf_direction.scale ((i : Int) + 1))
      let stemRun := (List.range stem_cost.toNat).reverse.map
        (fun i : Nat => parent_pos + stem_direction.scale ((i : Int) + 1))
      (construct_path parents fuel parent_pos).map
        (fun rest => leafRun ++ stemRun ++ rest)

/-- The mutable state of one `jps` invocation: the open priority queue, the
best-cost map and the parent map (the two `HashMap`s of the source, embedded as
functions to `Option`). -/
structure SearchState where
  openHeap : MinHeap OpenNode
  costs : Pos → Option Nat
  parents : Pos → Option JumpPoint

/-- Pointwise update of an embedded map. -/
def updateMap {β : Type} (m : Pos → Option β) (k : Pos) (v : β) : Pos → Option β :=
  fun q => if q = k then some v else m q

/-- The neighbor callback closure inside `jps` from `astar.rs`: discard the
neighbor when its position already has a strictly smaller recorded cost,
otherwise push it with priority `new_cost + heuristic` and overwrite parent and
cost. (The source indexes `costs[&curr.pos]` directly; the `getD 0` default is
never taken on states where `curr.pos` has a recorded cost.) -/
def jpsVisit (heuristic : Pos → Nat) (curr : JumpPoint) (st : SearchState)
    (neighbor : OpenNode) : SearchState :=
  let neighbor_pos := neighbor.pos
  let new_cost := (st.costs curr.pos).getD 0 + neighbor_pos.distance curr.pos
  let pushed : SearchState :=
    { openHeap := MinHeap.push st.openHeap neighbor (new_cost + heuristic neighbor_pos)
      costs := updateMap st.costs neighbor_pos new_cost
      parents := updateMap st.parents neighbor_pos curr }
  match st.costs neighbor_pos with
  | some cost => if new_cost > cost then st else pushed
  | none => pushed

/-- The main `while let Some(node) = open.pop()` loop of `jps` from `astar.rs`.
`scanFuel` bounds each neighbor scan, the `Nat` argument bounds the remaining
loop iterations; `none` means some loop has not yet exited within its fuel. -/
def jpsLoop (is_goal passable : Pos → Bool) (heuristic : Pos → Nat)
    (scanFuel : Nat) : Nat → SearchState → Option (Option (List Pos))
  | 0, _ => none
  | fuel + 1, st =>
    match MinHeap.pop st.openHeap with
    | none => some none
    | some ((node, _), rest) =>
      match node with
      | OpenNode.goal pos =>
        (construct_path st.parents (fuel + 1) pos).map (fun path => some path)
      | OpenNode.jumpPoint curr =>
        match curr.for_each_neighbor is_goal passable scanFuel with
        | none => none
        | some neighbors =>
          jpsLoop is_goal passable heuristic scanFuel fuel
            (neighbors.foldl (jpsVisit heuristic curr) { st with openHeap := rest })

/-- The state of `jps` just before its main loop: eight initial jump points at
the origin (one per direction, chirality chosen by `flip`), each with priority
`heuristic origin`, and cost 0 recorded for the origin. -/
def initialState (origin : Pos) (heuristic : Pos → Nat) (flip : Bool) : SearchState :=
  { openHeap := DIRECTIONS.foldl
      (fun h d => MinHeap.push h (OpenNode.initial origin d flip) (heuristic origin)) []
    costs := updateMap (fun _ => none) origin 0
    parents := fun _ => none }

/-- `jps` from `astar.rs`: `some r` means the source function returns `r`
(`r = some path` a found path, ordered goal first; `r = none` no path);
`none` means the search has not finished within `fuel`. -/
def jps (origin : Pos) (is_goal passable : Pos → Bool) (heuristic : Pos → Nat)
    (flip : Bool) (fuel : Nat) : Option (Option (List Pos)) :=
  if is_goal origin = true then some (some [origin])
  else jpsLoop is_goal passable heuristic fuel fuel (initialState origin heuristic flip)

/-! ### Basic geometry lemmas -/

theorem Pos.add_def (a b : Pos) : a + b = ⟨a.x + b.x, a.y + b.y⟩ := rfl

theorem Pos.sub_def (a b : Pos) : a - b = ⟨a.x - b.x, a.y - b.y⟩ := rfl

theorem Pos.distance_eq_zero_iff (a b : Pos) : a.distance b = 0 ↔ a = b := by
  cases a; cases b
  simp [Pos.distance, Nat.max_eq_zero_iff, Int.natAbs_eq_zero, sub_eq_zero, Pos.mk.injEq]

theorem Pos.one_le_distance_of_ne {a b : Pos} (h : a ≠ b) : 1 ≤ a.distance b := by
  rcases Nat.eq_zero_or_pos (a.distance b) with h0 | h1
  · exact absurd ((Pos.distance_eq_zero_iff a b).mp h0) h
  · exact h1

theorem Direction.det_rotate_one_ne_zero :
    ∀ (d : Direction) (c : Chirality),
      d.toVec.x * ((c.rotate d 1).toVec.y) - d.toVec.y * ((c.rotate d 1).toVec.x) ≠ 0 := by
  intro d c
  cases d <;> cases c <;> decide

theorem decompose_eq (v : Pos) (stem leaf : Direction) (s l : Int)
    (hdet : stem.toVec.x * leaf.toVec.y - stem.toVec.y * leaf.toVec.x ≠ 0)
    (hv : v = stem.scale s + leaf.scale l) :
    decompose v stem leaf = (s, l) := by
  subst hv
  unfold decompose
  rw [if_neg hdet]
  have hx : (stem.scale s + leaf.scale l).x = stem.toVec.x * s + leaf.toVec.x * l := rfl
  have hy : (stem.scale s + leaf.scale l).y = stem.toVec.y * s + leaf.toVec.y * l := rfl
  rw [hx, hy]
  have h1 : (stem.toVec.x * s + leaf.toVec.x * l) * leaf.toVec.y -
      (stem.toVec.y * s + leaf.toVec.y * l) * leaf.toVec.x =
      s * (stem.toVec.x * leaf.toVec.y - stem.toVec.y * leaf.toVec.x) := by ring
  have h2 : stem.toVec.x * (stem.toVec.y * s + leaf.toVec.y * l) -
      stem.toVec.y * (stem.toVec.x * s + leaf.toVec.x * l) =
      l * (stem.toVec.x * leaf.toVec.y - stem.toVec.y * leaf.toVec.x) := by ring
  rw [h1, h2, Int.mul_ediv_cancel _ hdet, Int.mul_ediv_cancel _ hdet]

theorem decompose_scale_combo (d : Direction) (c : Chirality) (s l : Int) :
    decompose (d.scale s + (c.rotate d 1).scale l) d (c.rotate d 1) = (s, l) :=
  decompose_eq _ _ _ _ _ (Direction.det_rotate_one_ne_zero d c) rfl

theorem scale_combo_inj (d : Direction) (c : Chirality) {s l s' l' : Int}
    (h : d.scale s + (c.rotate d 1).scale l = d.scale s' + (c.rotate d 1).scale l') :
    s = s' ∧ l = l' := by
  have h1 := decompose_scale_combo d c s l
  have h2 := decompose_scale_combo d c s' l'
  rw [h] at h1
  rw [h2] at h1
  exact ⟨(Prod.mk.injEq _ _ _ _ ▸ h1).1.symm, (Prod.mk.injEq _ _ _ _ ▸ h1).2.symm⟩

theorem Direction.scale_zero (d : Direction) : d.scale 0 = ⟨0, 0⟩ := by
  simp [Direction.scale]

theorem scale_combo_ne_zero (d : Direction) (c : Chirality) {s l : Int}
    (hs : 1 ≤ s) : d.scale s + (c.rotate d 1).scale l ≠ ⟨0, 0⟩ := by
  intro h
  have h0 : d.scale s + (c.rotate d 1).scale l = d.scale 0 + (c.rotate d 1).scale 0 := by
    rw [Direction.scale_zero, Direction.scale_zero, h]
    rfl
  have := (scale_combo_inj d c h0).1
  omega

theorem Pos.add_eq_self_iff (a v : Pos) : a + v = a ↔ v = ⟨0, 0⟩ := by
  cases a; cases v
  simp only [Pos.add_def, Pos.mk.injEq]
  constructor
  · intro ⟨h1, h2⟩
    constructor <;> omega
  · intro ⟨h1, h2⟩
    constructor <;> omega

theorem combo_pos_ne (curr : Pos) (d : Direction) (c : Chirality) {s l : Int}
    (hs : 1 ≤ s) : curr + (d.scale s + (c.rotate d 1).scale l) ≠ curr := by
  intro h
  exact scale_combo_ne_zero d c hs ((Pos.add_eq_self_iff curr _).mp h)

/-! ### MinHeap lemmas -/

theorem MinHeap.pop_eq_none_iff {α : Type} (h : MinHeap α) :
    MinHeap.pop h = none ↔ h = [] := by
  cases h with
  | nil => simp [MinHeap.pop]
  | cons a t =>
    obtain ⟨x, p⟩ := a
    simp only [MinHeap.pop]
    cases hpt : MinHeap.pop t with
    | none => simp
    | some v =>
      obtain ⟨⟨b, q⟩, rest'⟩ := v
      by_cases hle : p ≤ q <;> simp [hle]

theorem MinHeap.pop_perm {α : Type} (h : MinHeap α) (x : α × Nat) (rest : MinHeap α)
    (hp : MinHeap.pop h = some (x, rest)) : h.Perm (x :: rest) := by
  induction h generalizing x rest with
  | nil => simp [MinHeap.pop] at hp
  | cons a t ih =>
    obtain ⟨av, ap⟩ := a
    simp only [MinHeap.pop] at hp
    cases hpt : MinHeap.pop t with
    | none =>
      rw [hpt] at hp
      simp only [Option.some.injEq, Prod.mk.injEq] at hp
      obtain ⟨hx, hrest⟩ := hp
      subst hx
      subst hrest
      rw [(MinHeap.pop_eq_none_iff t).mp hpt]
    | some v =>
      obtain ⟨⟨b, q⟩, rest'⟩ := v
      rw [hpt] at hp
      by_cases hle : ap ≤ q
      · simp only [if_pos hle, Option.some.injEq, Prod.mk.injEq] at hp
        obtain ⟨hx, hrest⟩ := hp
        subst hx
        subst hrest
        exact List.Perm.refl _
      · simp only [if_neg hle, Option.some.injEq, Prod.mk.injEq] at hp
        obtain ⟨hx, hrest⟩ := hp
        subst hx
        subst hrest
        have ht : t.Perm ((b, q) :: rest') := ih _ _ hpt
        have h1 : List.Perm ((av, ap) :: t) ((av, ap) :: (b, q) :: rest') := ht.cons _
        have h2 : List.Perm ((av, ap) :: (b, q) :: rest') ((b, q) :: (av, ap) :: rest') :=
          List.Perm.swap (b, q) (av, ap) rest'
        exact h1.trans h2

theorem MinHeap.mem_push {α : Type} (h : MinHeap α) (x : α) (p : Nat) (y : α × Nat) :
    y ∈ MinHeap.push h x p ↔ y ∈ h ∨ y = (x, p) := by
  simp [MinHeap.push]

/-! ### Scan soundness: geometry and passability of emitted nodes -/

theorem Pos.add_assoc' (a b c : Pos) : a + b + c = a + (b + c) := by
  cases a; cases b; cases c
  simp only [Pos.add_def, Pos.mk.injEq]
  exact ⟨by ring, by ring⟩

theorem Pos.add_zero' (a : Pos) : a + ⟨0, 0⟩ = a := by
  cases a
  simp [Pos.add_def]

theorem bool_eq_true_of_not_eq_false {b : Bool} (h : ¬ b = false) : b = true := by
  cases b
  · exact absurd rfl h
  · rfl

/-- One-step unfolding of the leaf scan at an impassable cell. -/
theorem for_each_leaf_neighbor_impassable {g p : Pos → Bool} {root : Pos} {dir : Direction}
    {fuel len : Nat} (hp : p (root + dir.scale (len : Int)) = false) :
    for_each_leaf_neighbor g p root dir (fuel + 1) len = some [] := by
  rw [for_each_leaf_neighbor]
  simp only [hp]

/-- One-step unfolding of the leaf scan at a goal cell. -/
theorem for_each_leaf_neighbor_goal {g p : Pos → Bool} {root : Pos} {dir : Direction}
    {fuel len : Nat} (hp : p (root + dir.scale (len : Int)) = true)
    (hg : g (root + dir.scale (len : Int)) = true) :
    for_each_leaf_neighbor g p root dir (fuel + 1) len =
      some [OpenNode.goal (root + dir.scale (len : Int))] := by
  rw [for_each_leaf_neighbor]
  simp only [hp, hg]

/-- One-step unfolding of the leaf scan at an interior (passable, non-goal)
cell: the forced turn neighbors of both chiralities, then the rest of the scan. -/
theorem for_each_leaf_neighbor_interior {g p : Pos → Bool} {root : Pos} {dir : Direction}
    {fuel len : Nat} (hp : p (root + dir.scale (len : Int)) = true)
    (hg : g (root + dir.scale (len : Int)) = false) :
    for_each_leaf_neighbor g p root dir (fuel + 1) len =
      (for_each_leaf_neighbor g p root dir fuel (len + 1)).map (fun rest =>
        ((if (JumpPoint.neighbor_of (root + dir.scale (len : Int)) dir
              Chirality.clockwise).is_forced p then
            [OpenNode.jumpPoint (JumpPoint.neighbor_of (root + dir.scale (len : Int)) dir
              Chirality.clockwise)] else []) ++
          (if (JumpPoint.neighbor_of (root + dir.scale (len : Int)) dir
              Chirality.counterclockwise).is_forced p then
            [OpenNode.jumpPoint (JumpPoint.neighbor_of (root + dir.scale (len : Int)) dir
              Chirality.counterclockwise)] else [])) ++ rest) := by
  rw [for_each_leaf_neighbor]
  simp only [hp, hg]

/-- One-step unfolding of the stem scan at an impassable cell. -/
theorem for_each_neighbor_from_impassable {g p : Pos → Bool} {jp : JumpPoint}
    {lf fuel len : Nat} (hp : p (jp.pos + jp.direction.scale (len : Int)) = false) :
    jp.for_each_neighbor_from g p lf (fuel + 1) len = some [] := by
  rw [JumpPoint.for_each_neighbor_from]
  simp only [hp]

/-- One-step unfolding of the stem scan at a goal cell. -/
theorem for_each_neighbor_from_goal {g p : Pos → Bool} {jp : JumpPoint}
    {lf fuel len : Nat} (hp : p (jp.pos + jp.direction.scale (len : Int)) = true)
    (hg : g (jp.pos + jp.direction.scale (len : Int)) = true) :
    jp.for_each_neighbor_from g p lf (fuel + 1) len =
      some [OpenNode.goal (jp.pos + jp.direction.scale (len : Int))] := by
  rw [JumpPoint.for_each_neighbor_from]
  simp only [hp, hg]

/-- One-step unfolding of the stem scan at an interior cell: the forced turn
neighbor, the leaf-scan emissions, then the rest of the stem scan. -/
theorem for_each_neighbor_from_interior {g p : Pos → Bool} {jp : JumpPoint}
    {lf fuel len : Nat} (hp : p (jp.pos + jp.direction.scale (len : Int)) = true)
    (hg : g (jp.pos + jp.direction.scale (len : Int)) = false) :
    jp.for_each_neighbor_from g p lf (fuel + 1) len =
      match for_each_leaf_neighbor g p (jp.pos + jp.direction.scale (len : Int))
          (jp.chirality.rotate jp.direction 1) lf 1 with
      | none => none
      | some leafNodes =>
        (jp.for_each_neighbor_from g p lf fuel (len + 1)).map (fun rest =>
          (if (JumpPoint.neighbor_of (jp.pos + jp.direction.scale (len : Int)) jp.direction
                jp.chirality).is_forced p then
            [OpenNode.jumpPoint (JumpPoint.neighbor_of (jp.pos + jp.direction.scale (len : Int))
              jp.direction jp.chirality)] else []) ++ leafNodes ++ rest) := by
  rw [JumpPoint.for_each_neighbor_from]
  simp only [hp, hg]

/-- Membership in the possibly-empty singleton emitted for a forced neighbor. -/
theorem mem_forced_singleton {c : Prop} [Decidable c] {jp : JumpPoint} {n : OpenNode}
    (hn : n ∈ (if c then [OpenNode.jumpPoint jp] else [])) : n = OpenNode.jumpPoint jp := by
  split_ifs at hn
  · simpa using hn
  · simp at hn

/-- Membership in the pair of possibly-emitted forced neighbors. -/
theorem mem_forced_pair {c1 c2 : Prop} [Decidable c1] [Decidable c2]
    {jp1 jp2 : JumpPoint} {n : OpenNode}
    (hn : n ∈ (if c1 then [OpenNode.jumpPoint jp1] else []) ++
      (if c2 then [OpenNode.jumpPoint jp2] else [])) :
    n = OpenNode.jumpPoint jp1 ∨ n = OpenNode.jumpPoint jp2 := by
  rw [List.mem_append] at hn
  cases hn with
  | inl h => exact Or.inl (mem_forced_singleton h)
  | inr h => exact Or.inr (mem_forced_singleton h)

/-- Every node emitted by a leaf scan started at offset `len` sits at
`root + direction * k` for some `k ≥ len`, all scanned cells from offset `len`
through `k` are passable, and a `goal` emission satisfies the goal test. -/
theorem for_each_leaf_neighbor_sound (g p : Pos → Bool) (root : Pos) (dir : Direction) :
    ∀ (fuel len : Nat) (ns : List OpenNode),
      for_each_leaf_neighbor g p root dir fuel len = some ns →
      ∀ n ∈ ns, ∃ k : Nat, len ≤ k ∧
        n.pos = root + dir.scale (k : Int) ∧
        (∀ j : Nat, len ≤ j → j ≤ k → p (root + dir.scale (j : Int)) = true) ∧
        (∀ q, n = OpenNode.goal q → g q = true) := by
  intro fuel
  induction fuel with
  | zero =>
    intro len ns h
    simp [for_each_leaf_neighbor] at h
  | succ fuel ih =>
    intro len ns h
    cases hp : p (root + dir.scale (len : Int)) with
    | false =>
      rw [for_each_leaf_neighbor_impassable hp] at h
      simp only [Option.some.injEq] at h
      subst h
      intro n hn
      simp at hn
    | true =>
      cases hg : g (root + dir.scale (len : Int)) with
      | true =>
        rw [for_each_leaf_neighbor_goal hp hg] at h
        simp only [Option.some.injEq] at h
        subst h
        intro n hn
        simp only [List.mem_singleton] at hn
        subst hn
        refine ⟨len, le_refl _, rfl, ?_, ?_⟩
        · intro j hj1 hj2
          have hj : j = len := le_antisymm hj2 hj1
          subst hj
          exact hp
        · intro q hq
          simp only [OpenNode.goal.injEq] at hq
          subst hq
          exact hg
      | false =>
        rw [for_each_leaf_neighbor_interior hp hg] at h
        cases hrec : for_each_leaf_neighbor g p root dir fuel (len + 1) with
        | none =>
          rw [hrec] at h
          simp at h
        | some rest' =>
          rw [hrec] at h
          simp only [Option.map_some', Option.some.injEq] at h
          subst h
          intro n hn
          rw [List.mem_append] at hn
          cases hn with
          | inl hhere =>
            have hshape := mem_forced_pair hhere
            have hposeq : n.pos = root + dir.scale (len : Int) := by
              cases hshape with
              | inl he => rw [he]; rfl
              | inr he => rw [he]; rfl
            refine ⟨len, le_refl _, hposeq, ?_, ?_⟩
            · intro j hj1 hj2
              have hj : j = len := le_antisymm hj2 hj1
              subst hj
              exact hp
            · intro q hq
              cases hshape with
              | inl he => rw [he] at hq; simp at hq
              | inr he => rw [he] at hq; simp at hq
          | inr htail =>
            obtain ⟨k, hk1, hk2, hk3, hk4⟩ := ih (len + 1) rest' hrec n htail
            refine ⟨k, by omega, hk2, ?_, hk4⟩
            intro j hj1 hj2
            by_cases hje : j = len
            · subst hje
              exact hp
            · exact hk3 j (by omega) hj2

/-- Every node emitted by the stem scan of a jump point `jp` (started at stem
offset `len`) sits at `jp.pos + direction * s + leaf_direction * l` with
`s ≥ len`, the traversed stem cells and leaf cells are passable, the node's own
cell is passable, and a `goal` emission satisfies the goal test. -/
theorem for_each_neighbor_from_sound (g p : Pos → Bool) (jp : JumpPoint) (lf : Nat) :
    ∀ (fuel len : Nat) (ns : List OpenNode),
      jp.for_each_neighbor_from g p lf fuel len = some ns →
      ∀ n ∈ ns, ∃ s l : Nat, len ≤ s ∧
        n.pos = jp.pos + (jp.direction.scale (s : Int) +
          (jp.chirality.rotate jp.direction 1).scale (l : Int)) ∧
        p n.pos = true ∧
        (∀ j : Nat, len ≤ j → j ≤ s → p (jp.pos + jp.direction.scale (j : Int)) = true) ∧
        (∀ j : Nat, 1 ≤ j → j ≤ l →
          p ((jp.pos + jp.direction.scale (s : Int)) +
            (jp.chirality.rotate jp.direction 1).scale (j : Int)) = true) ∧
        (∀ q, n = OpenNode.goal q → g q = true) := by
  intro fuel
  induction fuel with
  | zero =>
    intro len ns h
    simp [JumpPoint.for_each_neighbor_from] at h
  | succ fuel ih =>
    intro len ns h
    cases hp : p (jp.pos + jp.direction.scale (len : Int)) with
    | false =>
      rw [for_each_neighbor_from_impassable hp] at h
      simp only [Option.some.injEq] at h
      subst h
      intro n hn
      simp at hn
    | true =>
      cases hg : g (jp.pos + jp.direction.scale (len : Int)) with
      | true =>
        rw [for_each_neighbor_from_goal hp hg] at h
        simp only [Option.some.injEq] at h
        subst h
        intro n hn
        simp only [List.mem_singleton] at hn
        subst hn
        refine ⟨len, 0, le_refl _, ?_, hp, ?_, ?_, ?_⟩
        · simp [OpenNode.pos, Direction.scale_zero, Pos.add_zero']
        · intro j hj1 hj2
          have hj : j = len := le_antisymm hj2 hj1
          subst hj
          exact hp
        · intro j hj1 hj2
          omega
        · intro q hq
          simp only [OpenNode.goal.injEq] at hq
          subst hq
          exact hg
      | false =>
        rw [for_each_neighbor_from_interior hp hg] at h
        cases hleaf : for_each_leaf_neighbor g p (jp.pos + jp.direction.scale (len : Int))
            (jp.chirality.rotate jp.direction 1) lf 1 with
        | none =>
          rw [hleaf] at h
          simp at h
        | some leafNodes =>
          rw [hleaf] at h
          cases hrec : jp.for_each_neighbor_from g p lf fuel (len + 1) with
          | none =>
            rw [hrec] at h
            simp at h
          | some rest' =>
            rw [hrec] at h
            simp only [Option.map_some', Option.some.injEq] at h
            subst h
            intro n hn
            rw [List.mem_append, List.mem_append] at hn
            rcases hn with (hturn | hleafmem) | htail
            · -- the forced turn neighbor at the current stem cell
              have he := mem_forced_singleton hturn
              refine ⟨len, 0, le_refl _, ?_, ?_, ?_, ?_, ?_⟩
              · rw [he]
                simp [OpenNode.pos, JumpPoint.neighbor_of, Direction.scale_zero, Pos.add_zero']
              · rw [he]
                exact hp
              · intro j hj1 hj2
                have hj : j = len := le_antisymm hj2 hj1
                subst hj
                exact hp
              · intro j hj1 hj2
                omega
              · intro q hq
                rw [he] at hq
                simp at hq
            · -- a node emitted by the leaf scan rooted at the current stem cell
              obtain ⟨k, hk1, hk2, hk3, hk4⟩ :=
                for_each_leaf_neighbor_sound g p _ _ lf 1 leafNodes hleaf n hleafmem
              refine ⟨len, k, le_refl _, ?_, ?_, ?_, ?_, hk4⟩
              · rw [hk2, Pos.add_assoc']
              · rw [hk2]
                exact hk3 k hk1 (le_refl _)
              · intro j hj1 hj2
                have hj : j = len := le_antisymm hj2 hj1
                subst hj
                exact hp
              · intro j hj1 hj2
                exact hk3 j hj1 hj2
            · -- a node emitted further along the stem
              obtain ⟨s, l, hs1, hs2, hs3, hs4, hs5, hs6⟩ := ih (len + 1) rest' hrec n htail
              refine ⟨s, l, by omega, hs2, hs3, ?_, hs5, hs6⟩
              intro j hj1 hj2
              by_cases hje : j = len
              · subst hje
                exact hp
              · exact hs4 j (by omega) hj2

/-- Wrapper soundness for a full neighbor scan (stem offsets start at 1):
every emitted node sits at `jp.pos + direction * s + leaf * l` with `s ≥ 1`,
is passable, differs from `jp.pos`, and `goal` emissions satisfy the goal test. -/
theorem for_each_neighbor_sound (g p : Pos → Bool) (jp : JumpPoint) (fuel : Nat)
    (ns : List OpenNode) (h : jp.for_each_neighbor g p fuel = some ns) :
    ∀ n ∈ ns, ∃ s l : Int, 1 ≤ s ∧ 0 ≤ l ∧
      n.pos = jp.pos + (jp.direction.scale s +
        (jp.chirality.rotate jp.direction 1).scale l) ∧
      p n.pos = true ∧
      (∀ q, n = OpenNode.goal q → g q = true) ∧
      n.pos ≠ jp.pos ∧ 1 ≤ n.pos.distance jp.pos := by
  intro n hn
  obtain ⟨s, l, hs1, hs2, hs3, _, _, hs6⟩ :=
    for_each_neighbor_from_sound g p jp fuel fuel 1 ns h n hn
  have hsi : (1 : Int) ≤ (s : Int) := by exact_mod_cast hs1
  have hli : (0 : Int) ≤ (l : Int) := Int.ofNat_nonneg l
  have hne : n.pos ≠ jp.pos := by
    rw [hs2]
    exact combo_pos_ne jp.pos jp.direction jp.chirality hsi
  exact ⟨s, l, hsi, hli, hs2, hs3, hs6, hne, Pos.one_le_distance_of_ne hne⟩

/-! ### The search invariant -/

theorem updateMap_self {β : Type} (m : Pos → Option β) (k : Pos) (v : β) :
    updateMap m k v k = some v := by
  simp [updateMap]

theorem updateMap_ne {β : Type} (m : Pos → Option β) (k : Pos) (v : β) {q : Pos}
    (h : q ≠ k) : updateMap m k v q = m q := by
  simp [updateMap, h]

theorem updateMap_isSome {β : Type} (m : Pos → Option β) (k : Pos) (v : β) (q : Pos)
    (h : (m q).isSome) : (updateMap m k v q).isSome := by
  by_cases hq : q = k
  · subst hq
    simp [updateMap]
  · rwa [updateMap_ne _ _ _ hq]

/-- The inductive invariant of the `jps` main loop, tying together the open
queue, the best-cost map and the parent map. -/
structure SearchInv (origin : Pos) (g p : Pos → Bool) (st : SearchState) : Prop where
  dom : ∀ q, (st.costs q).isSome ↔ ((st.parents q).isSome ∨ q = origin)
  origin_no_parent : st.parents origin = none
  origin_cost : st.costs origin = some 0
  queue_jp : ∀ jp pri, (OpenNode.jumpPoint jp, pri) ∈ st.openHeap →
    (st.costs jp.pos).isSome ∧ (jp.pos = origin ∨ p jp.pos = true)
  queue_goal : ∀ q pri, (OpenNode.goal q, pri) ∈ st.openHeap →
    p q = true ∧ g q = true ∧ (st.costs q).isSome
  parent_geom : ∀ c jp, st.parents c = some jp → ∃ s l : Int, 1 ≤ s ∧ 0 ≤ l ∧
    c = jp.pos + (jp.direction.scale s + (jp.chirality.rotate jp.direction 1).scale l)
  parent_cost : ∀ c jp, st.parents c = some jp → ∃ cc pc, st.costs c = some cc ∧
    st.costs jp.pos = some pc ∧ pc + Pos.distance c jp.pos ≤ cc

/-- `jpsVisit` discards the neighbor exactly when its position already has a
recorded cost strictly below the newly computed cost. -/
theorem jpsVisit_skip (h : Pos → Nat) (curr : JumpPoint) (st : SearchState)
    (n : OpenNode) (pc cost : Nat)
    (hcurr : st.costs curr.pos = some pc)
    (hc : st.costs n.pos = some cost)
    (hgt : cost < pc + n.pos.distance curr.pos) :
    jpsVisit h curr st n = st := by
  unfold jpsVisit
  simp only [hc, hcurr, Option.getD_some]
  rw [if_pos hgt]

/-- When the neighbor's position has no recorded cost, or a recorded cost not
below the new cost, `jpsVisit` pushes the neighbor with priority
`new_cost + heuristic` and unconditionally overwrites its parent and cost. -/
theorem jpsVisit_push (h : Pos → Nat) (curr : JumpPoint) (st : SearchState)
    (n : OpenNode) (pc : Nat)
    (hcurr : st.costs curr.pos = some pc)
    (hok : ∀ cost, st.costs n.pos = some cost → pc + n.pos.distance curr.pos ≤ cost) :
    jpsVisit h curr st n =
      { openHeap := MinHeap.push st.openHeap n
          (pc + n.pos.distance curr.pos + h n.pos)
        costs := updateMap st.costs n.pos (pc + n.pos.distance curr.pos)
        parents := updateMap st.parents n.pos curr } := by
  unfold jpsVisit
  cases hc : st.costs n.pos with
  | some cost =>
    simp only [hc, hcurr, Option.getD_some]
    rw [if_neg (by have := hok cost hc; omega)]
  | none =>
    simp only [hc, hcurr, Option.getD_some]

/-- Processing one emitted neighbor preserves the search invariant, and leaves
the recorded cost of the expanded jump point's position unchanged. -/
theorem jpsVisit_inv {origin : Pos} {g p : Pos → Bool} (h : Pos → Nat)
    (curr : JumpPoint) (st : SearchState) (n : OpenNode) (pc : Nat)
    (inv : SearchInv origin g p st)
    (hcurr : st.costs curr.pos = some pc)
    (hgeom : ∃ s l : Int, 1 ≤ s ∧ 0 ≤ l ∧
      n.pos = curr.pos + (curr.direction.scale s +
        (curr.chirality.rotate curr.direction 1).scale l))
    (hpass : p n.pos = true)
    (hgoal : ∀ q, n = OpenNode.goal q → g q = true)
    (hne : n.pos ≠ curr.pos) :
    SearchInv origin g p (jpsVisit h curr st n) ∧
      (jpsVisit h curr st n).costs curr.pos = some pc := by
  have hdist : 1 ≤ n.pos.distance curr.pos := Pos.one_le_distance_of_ne hne
  by_cases hskip : ∃ cost, st.costs n.pos = some cost ∧ cost < pc + n.pos.distance curr.pos
  · obtain ⟨cost, hc, hgt⟩ := hskip
    rw [jpsVisit_skip h curr st n pc cost hcurr hc hgt]
    exact ⟨inv, hcurr⟩
  · have hok : ∀ cost, st.costs n.pos = some cost → pc + n.pos.distance curr.pos ≤ cost := by
      intro cost hc
      by_contra hlt
      exact hskip ⟨cost, hc, by omega⟩
    rw [jpsVisit_push h curr st n pc hcurr hok]
    -- the origin is never overwritten: a positive new cost cannot undercut 0
    have hno : n.pos ≠ origin := by
      intro hcontra
      have h0 := inv.origin_cost
      rw [← hcontra] at h0
      have := hok 0 h0
      omega
    constructor
    · refine SearchInv.mk ?_ ?_ ?_ ?_ ?_ ?_ ?_ <;> dsimp only
      · intro q
        by_cases hq : q = n.pos
        · subst hq
          simp [updateMap_self]
        · rw [updateMap_ne _ _ _ hq, updateMap_ne _ _ _ hq]
          exact inv.dom q
      · rw [updateMap_ne _ _ _ (fun he => hno he.symm)]
        exact inv.origin_no_parent
      · rw [updateMap_ne _ _ _ (fun he => hno he.symm)]
        exact inv.origin_cost
      · intro jp pri hmem
        rw [MinHeap.mem_push] at hmem
        cases hmem with
        | inl hold =>
          obtain ⟨h1, h2⟩ := inv.queue_jp jp pri hold
          exact ⟨updateMap_isSome _ _ _ _ h1, h2⟩
        | inr hnew =>
          have hjp : OpenNode.jumpPoint jp = n := congrArg Prod.fst hnew
          have hjpos : jp.pos = n.pos := by rw [← hjp]; rfl
          constructor
          · rw [hjpos]
            simp [updateMap_self]
          · right
            rw [hjpos]
            exact hpass
      · intro q pri hmem
        rw [MinHeap.mem_push] at hmem
        cases hmem with
        | inl hold =>
          obtain ⟨h1, h2, h3⟩ := inv.queue_goal q pri hold
          exact ⟨h1, h2, updateMap_isSome _ _ _ _ h3⟩
        | inr hnew =>
          have hq : OpenNode.goal q = n := congrArg Prod.fst hnew
          have hqpos : q = n.pos := by rw [← hq]; rfl
          refine ⟨by rw [hqpos]; exact hpass, hgoal q hq.symm, ?_⟩
          rw [hqpos]
          simp [updateMap_self]
      · intro c jp hpar
        by_cases hq : c = n.pos
        · subst hq
          rw [updateMap_self] at hpar
          injection hpar with h'
          rw [← h']
          exact hgeom
        · rw [updateMap_ne _ _ _ hq] at hpar
          exact inv.parent_geom c jp hpar
      · intro c jp hpar
        by_cases hq : c = n.pos
        · subst hq
          rw [updateMap_self] at hpar
          injection hpar with h'
          subst h'
          refine ⟨pc + n.pos.distance curr.pos, pc, updateMap_self _ _ _, ?_, le_refl _⟩
          rw [updateMap_ne _ _ _ (Ne.symm hne)]
          exact hcurr
        · rw [updateMap_ne _ _ _ hq] at hpar
          obtain ⟨cc, pcc, hcc, hpcc, hineq⟩ := inv.parent_cost c jp hpar
          by_cases hjq : jp.pos = n.pos
          · -- the parent's own recorded cost may have just been lowered
            have hle := hok pcc (by rw [← hjq]; exact hpcc)
            refine ⟨cc, pc + n.pos.distance curr.pos,
              by rw [updateMap_ne _ _ _ hq]; exact hcc, by rw [hjq, updateMap_self], ?_⟩
            omega
          · exact ⟨cc, pcc, by rw [updateMap_ne _ _ _ hq]; exact hcc,
              by rw [updateMap_ne _ _ _ hjq]; exact hpcc, hineq⟩
    · dsimp only
      rw [updateMap_ne _ _ _ (Ne.symm hne)]
      exact hcurr

/-- Folding the neighbor callback over a scan's emissions preserves the
invariant and the expanded jump point's recorded cost. -/
theorem foldl_jpsVisit_inv {origin : Pos} {g p : Pos → Bool} (h : Pos → Nat)
    (curr : JumpPoint) (pc : Nat) :
    ∀ (ns : List OpenNode) (st : SearchState),
      SearchInv origin g p st →
      st.costs curr.pos = some pc →
      (∀ n ∈ ns, (∃ s l : Int, 1 ≤ s ∧ 0 ≤ l ∧
        n.pos = curr.pos + (curr.direction.scale s +
          (curr.chirality.rotate curr.direction 1).scale l)) ∧
        p n.pos = true ∧ (∀ q, n = OpenNode.goal q → g q = true) ∧ n.pos ≠ curr.pos) →
      SearchInv origin g p (ns.foldl (jpsVisit h curr) st) ∧
        (ns.foldl (jpsVisit h curr) st).costs curr.pos = some pc := by
  intro ns
  induction ns with
  | nil =>
    intro st inv hcurr _
    exact ⟨inv, hcurr⟩
  | cons n ns ih =>
    intro st inv hcurr hns
    obtain ⟨hgeom, hpass, hgoal, hne⟩ := hns n (List.mem_cons_self n ns)
    obtain ⟨inv', hcurr'⟩ := jpsVisit_inv h curr st n pc inv hcurr hgeom hpass hgoal hne
    exact ih (jpsVisit h curr st n) inv' hcurr'
      (fun m hm => hns m (List.mem_cons_of_mem n hm))

/-- Popping an element only shrinks the heap's membership. -/
theorem mem_of_pop_rest {α : Type} {heap : MinHeap α} {x : α × Nat} {rest : MinHeap α}
    (hpop : MinHeap.pop heap = some (x, rest)) :
    (∀ y ∈ rest, y ∈ heap) ∧ x ∈ heap := by
  have hperm := MinHeap.pop_perm heap x rest hpop
  constructor
  · intro y hy
    exact hperm.mem_iff.mpr (List.mem_cons_of_mem x hy)
  · exact hperm.mem_iff.mpr (List.mem_cons_self x rest)

/-- One full jump-point expansion step of the main loop preserves the invariant. -/
theorem jpsStep_inv {origin : Pos} {g p : Pos → Bool} (h : Pos → Nat) (sf : Nat)
    (st : SearchState) (curr : JumpPoint) (pri : Nat) (rest : MinHeap OpenNode)
    (ns : List OpenNode)
    (inv : SearchInv origin g p st)
    (hpop : MinHeap.pop st.openHeap = some ((OpenNode.jumpPoint curr, pri), rest))
    (hscan : curr.for_each_neighbor g p sf = some ns) :
    SearchInv origin g p (ns.foldl (jpsVisit h curr) { st with openHeap := rest }) := by
  obtain ⟨hrest, hx⟩ := mem_of_pop_rest hpop
  have inv' : SearchInv origin g p { st with openHeap := rest } :=
    { dom := inv.dom
      origin_no_parent := inv.origin_no_parent
      origin_cost := inv.origin_cost
      queue_jp := fun jp pri' hmem => inv.queue_jp jp pri' (hrest _ hmem)
      queue_goal := fun q pri' hmem => inv.queue_goal q pri' (hrest _ hmem)
      parent_geom := inv.parent_geom
      parent_cost := inv.parent_cost }
  obtain ⟨hcs, _⟩ := inv.queue_jp curr pri hx
  obtain ⟨pc, hpc⟩ := Option.isSome_iff_exists.mp hcs
  refine (foldl_jpsVisit_inv h curr pc ns { st with openHeap := rest } inv' hpc ?_).1
  intro n hn
  obtain ⟨s, l, hs, hl, hform, hpass, hgoal, hne, _⟩ :=
    for_each_neighbor_sound g p curr sf ns hscan n hn
  exact ⟨⟨s, l, hs, hl, hform⟩, hpass, hgoal, hne⟩

/-- The open heap of the initial state: one seed per direction, in order. -/
theorem initialState_heap (origin : Pos) (h : Pos → Nat) (flip : Bool) :
    (initialState origin h flip).openHeap =
      DIRECTIONS.map (fun d => (OpenNode.initial origin d flip, h origin)) := rfl

/-- The initial state satisfies the search invariant. -/
theorem initialState_inv (origin : Pos) (g p : Pos → Bool) (h : Pos → Nat) (flip : Bool) :
    SearchInv origin g p (initialState origin h flip) := by
  constructor
  · intro q
    by_cases hq : q = origin
    · subst hq
      simp [initialState, updateMap_self]
    · simp [initialState, updateMap_ne _ _ _ hq, hq]
  · rfl
  · exact updateMap_self (fun _ => none) origin 0
  · intro jp pri hmem
    rw [initialState_heap, List.mem_map] at hmem
    obtain ⟨d, _, hd⟩ := hmem
    have hjp : OpenNode.initial origin d flip = OpenNode.jumpPoint jp :=
      congrArg Prod.fst hd
    have hpos : jp.pos = origin := by
      unfold OpenNode.initial at hjp
      injection hjp with h'
      rw [← h']
    constructor
    · rw [hpos]
      simp [initialState, updateMap_self]
    · exact Or.inl hpos
  · intro q pri hmem
    rw [initialState_heap, List.mem_map] at hmem
    obtain ⟨d, _, hd⟩ := hmem
    have : OpenNode.initial origin d flip = OpenNode.goal q := congrArg Prod.fst hd
    exact absurd this (by simp [OpenNode.initial])
  · intro c jp hpar
    exact Option.noConfusion hpar
  · intro c jp hpar
    exact Option.noConfusion hpar

/-- One-step unfolding of the main loop: empty queue. -/
theorem jpsLoop_pop_none {g p : Pos → Bool} {h : Pos → Nat} {sf fuel : Nat}
    {st : SearchState} (hpop : MinHeap.pop st.openHeap = none) :
    jpsLoop g p h sf (fuel + 1) st = some none := by
  rw [jpsLoop]
  simp only [hpop]

/-- One-step unfolding of the main loop: a `Goal` node is popped. -/
theorem jpsLoop_pop_goal {g p : Pos → Bool} {h : Pos → Nat} {sf fuel : Nat}
    {st : SearchState} {gp : Pos} {pri : Nat} {rest : MinHeap OpenNode}
    (hpop : MinHeap.pop st.openHeap = some ((OpenNode.goal gp, pri), rest)) :
    jpsLoop g p h sf (fuel + 1) st =
      (construct_path st.parents (fuel + 1) gp).map (fun path => some path) := by
  rw [jpsLoop]
  simp only [hpop]

/-- One-step unfolding of the main loop: a `JumpPoint` node is popped. -/
theorem jpsLoop_pop_jp {g p : Pos → Bool} {h : Pos → Nat} {sf fuel : Nat}
    {st : SearchState} {curr : JumpPoint} {pri : Nat} {rest : MinHeap OpenNode}
    (hpop : MinHeap.pop st.openHeap = some ((OpenNode.jumpPoint curr, pri), rest)) :
    jpsLoop g p h sf (fuel + 1) st =
      match curr.for_each_neighbor g p sf with
      | none => none
      | some ns =>
        jpsLoop g p h sf fuel (ns.foldl (jpsVisit h curr) { st with openHeap := rest }) := by
  rw [jpsLoop]
  simp only [hpop]

/-! ### Path reconstruction -/

theorem Pos.add_sub_cancel' (a v : Pos) : (a + v) - a = v := by
  cases a; cases v
  simp only [Pos.add_def, Pos.sub_def, Pos.mk.injEq]
  exact ⟨by ring, by ring⟩

theorem Direction.scale_one (d : Direction) : d.scale 1 = d.toVec := by
  cases d <;> rfl

theorem revRangeMap_ne_nil {f : Nat → Pos} {n : Nat} (hn : 1 ≤ n) :
    (List.range n).reverse.map f ≠ [] := by
  simp only [ne_eq, List.map_eq_nil_iff, List.reverse_eq_nil_iff, List.range_eq_nil]
  omega

theorem revRangeMap_head {f : Nat → Pos} {n : Nat} (hn : 1 ≤ n) :
    ((List.range n).reverse.map f).head? = some (f (n - 1)) := by
  obtain ⟨m, rfl⟩ : ∃ m, n = m + 1 := ⟨n - 1, by omega⟩
  rw [List.range_succ, List.reverse_append]
  simp

theorem revRangeMap_last {f : Nat → Pos} {n : Nat} (hn : 1 ≤ n) :
    ((List.range n).reverse.map f).getLast? = some (f 0) := by
  rw [List.map_reverse, List.getLast?_reverse]
  obtain ⟨m, rfl⟩ : ∃ m, n = m + 1 := ⟨n - 1, by omega⟩
  rw [List.range_succ_eq_map]
  simp

/-- One-step unfolding of `construct_path` at a position with a recorded
parent, given the decomposition of the child-parent offset. -/
theorem construct_path_parent_eq (parents : Pos → Option JumpPoint) (pos : Pos)
    (jp : JumpPoint) (f : Nat) (s l : Int)
    (hpar : parents pos = some jp)
    (hform : pos = jp.pos + (jp.direction.scale s +
      (jp.chirality.rotate jp.direction 1).scale l)) :
    construct_path parents (f + 1) pos =
      (construct_path parents f jp.pos).map (fun rest =>
        ((List.range l.toNat).reverse.map (fun i : Nat =>
          (jp.pos + jp.direction.scale s) +
            (jp.chirality.rotate jp.direction 1).scale ((i : Int) + 1))) ++
        ((List.range s.toNat).reverse.map (fun i : Nat =>
          jp.pos + jp.direction.scale ((i : Int) + 1))) ++ rest) := by
  rw [construct_path]
  simp only [hpar]
  have hsub : pos - jp.pos = jp.direction.scale s +
      (jp.chirality.rotate jp.direction 1).scale l := by
    rw [hform]
    exact Pos.add_sub_cancel' _ _
  rw [hsub, decompose_scale_combo]

/-- One-step unfolding of `construct_path` at a position with no parent. -/
theorem construct_path_root_eq (parents : Pos → Option JumpPoint) (pos : Pos) (f : Nat)
    (hpar : parents pos = none) :
    construct_path parents (f + 1) pos = some [] := by
  rw [construct_path]
  simp only [hpar]

/-- Walking the parent chain from any costed position: the reconstruction
(when it returns) starts at that position, and its final element is one unit
step away from the origin. Strong induction on the recorded cost, which
strictly decreases along parent links. -/
theorem construct_path_chain {origin : Pos} {g p : Pos → Bool} (st : SearchState)
    (inv : SearchInv origin g p st) :
    ∀ (cc : Nat) (pos : Pos) (f : Nat) (path : List Pos),
      st.costs pos = some cc →
      construct_path st.parents f pos = some path →
      (st.parents pos = none → path = []) ∧
      (st.parents pos ≠ none → path.head? = some pos ∧
        ∃ d : Direction, path.getLast? = some (origin + d.toVec)) := by
  intro cc
  induction cc using Nat.strong_induction_on with
  | _ cc ih =>
    intro pos f path hcost hcp
    cases hpar : st.parents pos with
    | none =>
      refine ⟨fun _ => ?_, fun hne => absurd rfl hne⟩
      cases f with
      | zero => simp [construct_path] at hcp
      | succ f' =>
        rw [construct_path_root_eq _ _ _ hpar] at hcp
        injection hcp with h'
        exact h'.symm
    | some jp =>
      refine ⟨fun h0 => Option.noConfusion h0, fun _ => ?_⟩
      cases f with
      | zero => simp [construct_path] at hcp
      | succ f' =>
        obtain ⟨s, l, hs, hl, hform⟩ := inv.parent_geom pos jp hpar
        rw [construct_path_parent_eq st.parents pos jp f' s l hpar hform] at hcp
        cases hrest : construct_path st.parents f' jp.pos with
        | none =>
          rw [hrest] at hcp
          simp at hcp
        | some rest =>
          rw [hrest] at hcp
          simp only [Option.map_some', Option.some.injEq] at hcp
          obtain ⟨cc2, pc2, hcc2, hpc2, hineq⟩ := inv.parent_cost pos jp hpar
          have hcceq : cc2 = cc := by
            rw [hcost] at hcc2
            injection hcc2 with h'
            exact h'.symm
          have hne2 : pos ≠ jp.pos := by
            rw [hform]
            exact combo_pos_ne _ _ _ hs
          have hdist : 1 ≤ pos.distance jp.pos := Pos.one_le_distance_of_ne hne2
          have hlt : pc2 < cc := by omega
          have IH := ih pc2 hlt jp.pos f' rest hpc2 hrest
          have hsnat : 1 ≤ s.toNat := by omega
          have hstem_ne : (List.range s.toNat).reverse.map
              (fun i : Nat => jp.pos + jp.direction.scale ((i : Int) + 1)) ≠ [] :=
            revRangeMap_ne_nil hsnat
          subst hcp
          constructor
          · -- the first element of the reconstructed block is `pos` itself
            by_cases hl0 : l = 0
            · subst hl0
              simp only [Int.toNat_zero, List.range_zero, List.reverse_nil, List.map_nil,
                List.nil_append]
              rw [List.head?_append_of_ne_nil _ hstem_ne, revRangeMap_head hsnat]
              have hcast : ((s.toNat - 1 : Nat) : Int) + 1 = s := by omega
              rw [hcast, hform, Direction.scale_zero, Pos.add_zero']
            · have hl1 : 1 ≤ l.toNat := by omega
              have hleaf_ne : (List.range l.toNat).reverse.map
                  (fun i : Nat => (jp.pos + jp.direction.scale s) +
                    (jp.chirality.rotate jp.direction 1).scale ((i : Int) + 1)) ≠ [] :=
                revRangeMap_ne_nil hl1
              rw [List.append_assoc, List.head?_append_of_ne_nil _ hleaf_ne,
                revRangeMap_head hl1]
              have hcast : ((l.toNat - 1 : Nat) : Int) + 1 = l := by omega
              rw [hcast, hform, Pos.add_assoc']
          · -- the final element is one step from the origin
            by_cases hrest_nil : rest = []
            · have hpj : st.parents jp.pos = none := by
                by_contra hpj
                obtain ⟨hhead, _⟩ := IH.2 hpj
                rw [hrest_nil] at hhead
                exact Option.noConfusion hhead
              have hjporigin : jp.pos = origin := by
                have hsome : (st.costs jp.pos).isSome := by rw [hpc2]; rfl
                have := (inv.dom jp.pos).mp hsome
                cases this with
                | inl hl2 => rw [hpj] at hl2; exact absurd hl2 (by simp)
                | inr hr2 => exact hr2
              subst hrest_nil
              rw [List.append_nil]
              refine ⟨jp.direction, ?_⟩
              rw [List.getLast?_append_of_ne_nil _ hstem_ne, revRangeMap_last hsnat]
              rw [← hjporigin]
              norm_num
              rw [Direction.scale_one]
            · have hpj : st.parents jp.pos ≠ none := by
                intro hpj
                exact hrest_nil (IH.1 hpj)
              obtain ⟨_, d, hlast⟩ := IH.2 hpj
              refine ⟨d, ?_⟩
              have hmid_ne : ((List.range s.toNat).reverse.map
                  (fun i : Nat => jp.pos + jp.direction.scale ((i : Int) + 1))) ++ rest ≠ [] := by
                intro hcontra
                rcases List.append_eq_nil.mp hcontra with ⟨h1, _⟩
                exact hstem_ne h1
              rw [List.append_assoc, List.getLast?_append_of_ne_nil _ hmid_ne,
                List.getLast?_append_of_ne_nil _ hrest_nil]
              exact hlast

theorem Direction.toVec_ne_zero : ∀ d : Direction, d.toVec ≠ ⟨0, 0⟩ := by
  intro d
  cases d <;> decide

/-- Any path returned by the main loop from an invariant state (when the origin
is not a goal) starts at a passable goal position and ends one unit step away
from the origin. -/
theorem jpsLoop_path_sound {origin : Pos} {g p : Pos → Bool} (h : Pos → Nat) (sf : Nat)
    (hog : g origin = false) :
    ∀ (fuel : Nat) (st : SearchState) (path : List Pos),
      SearchInv origin g p st →
      jpsLoop g p h sf fuel st = some (some path) →
      ∃ gp, p gp = true ∧ g gp = true ∧ path.head? = some gp ∧
        (∃ d : Direction, path.getLast? = some (origin + d.toVec)) := by
  intro fuel
  induction fuel with
  | zero =>
    intro st path _ hrun
    simp [jpsLoop] at hrun
  | succ fuel ih =>
    intro st path inv hrun
    cases hpop : MinHeap.pop st.openHeap with
    | none =>
      rw [jpsLoop_pop_none hpop] at hrun
      simp at hrun
    | some x =>
      obtain ⟨⟨node, pri⟩, rest⟩ := x
      cases node with
      | goal gp =>
        rw [jpsLoop_pop_goal hpop] at hrun
        cases hcp : construct_path st.parents (fuel + 1) gp with
        | none =>
          rw [hcp] at hrun
          simp at hrun
        | some path' =>
          rw [hcp] at hrun
          simp only [Option.map_some', Option.some.injEq] at hrun
          subst hrun
          have hx := (mem_of_pop_rest hpop).2
          obtain ⟨hpgp, hggp, hcs⟩ := inv.queue_goal gp pri hx
          obtain ⟨cc, hcc⟩ := Option.isSome_iff_exists.mp hcs
          have hchain := construct_path_chain st inv cc gp (fuel + 1) path' hcc hcp
          have hgporigin : gp ≠ origin := by
            intro he
            rw [he, hog] at hggp
            exact Bool.noConfusion hggp
          have hparent : st.parents gp ≠ none := by
            intro hnone
            cases (inv.dom gp).mp hcs with
            | inl hl2 => rw [hnone] at hl2; exact Bool.noConfusion hl2
            | inr hr2 => exact hgporigin hr2
          obtain ⟨hhead, d, hlast⟩ := hchain.2 hparent
          exact ⟨gp, hpgp, hggp, hhead, d, hlast⟩
      | jumpPoint curr =>
        rw [jpsLoop_pop_jp hpop] at hrun
        cases hscan : curr.for_each_neighbor g p sf with
        | none =>
          rw [hscan] at hrun
          simp at hrun
        | some ns =>
          rw [hscan] at hrun
          exact ih _ path (jpsStep_inv h sf st curr pri rest ns inv hpop hscan) hrun

/-! ### Concrete fixtures used by witnesses and counterexamples -/

/-- A three-cell corridor `(0,0) - (1,0) - (2,0)`. -/
def corridorPassable : Pos → Bool := fun q => 0 ≤ q.x && q.x ≤ 2 && q.y == 0

def corridorGoal : Pos → Bool := fun q => q == ⟨2, 0⟩

def corridorHeuristic : Pos → Nat := fun q => q.distance ⟨2, 0⟩

/-- A goal cell `(1,0)` whose eight neighbors are all impassable (only the
goal cell itself is passable). -/
def enclosedGoal : Pos → Bool := fun q => q == ⟨1, 0⟩

def enclosedPassable : Pos → Bool := fun q => q == ⟨1, 0⟩

/-! ### C2 -/

/-- C2: in the main loop of `jps`, a neighbor `n` emitted while expanding
`curr` (with `new_cost = cost[curr.pos] + distance(n.pos, curr.pos)`) is
discarded exactly when `n.pos` already has a recorded cost strictly less than
`new_cost`; otherwise, including on ties and on fresh positions, it is
pushed with priority `new_cost + heuristic(n.pos)` and both `parent[n.pos]`
and `cost[n.pos]` are unconditionally overwritten with `curr` and `new_cost`. -/
theorem C2_neighbor_update (h : Pos → Nat) (curr : JumpPoint) (st : SearchState)
    (n : OpenNode) (pc : Nat) (hcurr : st.costs curr.pos = some pc) :
    (∀ cost, st.costs n.pos = some cost → cost < pc + n.pos.distance curr.pos →
      jpsVisit h curr st n = st) ∧
    ((∀ cost, st.costs n.pos = some cost → pc + n.pos.distance curr.pos ≤ cost) →
      jpsVisit h curr st n =
        { openHeap := MinHeap.push st.openHeap n
            (pc + n.pos.distance curr.pos + h n.pos)
          costs := updateMap st.costs n.pos (pc + n.pos.distance curr.pos)
          parents := updateMap st.parents n.pos curr }) :=
  ⟨fun cost hc hgt => jpsVisit_skip h curr st n pc cost hcurr hc hgt,
   fun hok => jpsVisit_push h curr st n pc hcurr hok⟩

theorem C2_witness :
    jpsVisit (fun _ => 0) ⟨⟨0, 0⟩, Direction.east, Chirality.clockwise⟩
      (initialState ⟨0, 0⟩ (fun _ => 0) false) (OpenNode.goal ⟨2, 0⟩) =
      { openHeap := MinHeap.push
          (initialState ⟨0, 0⟩ (fun _ => 0) false).openHeap (OpenNode.goal ⟨2, 0⟩) 2
        costs := updateMap (initialState ⟨0, 0⟩ (fun _ => 0) false).costs ⟨2, 0⟩ 2
        parents := updateMap (initialState ⟨0, 0⟩ (fun _ => 0) false).parents ⟨2, 0⟩
          ⟨⟨0, 0⟩, Direction.east, Chirality.clockwise⟩ } :=
  (C2_neighbor_update (fun _ => 0) ⟨⟨0, 0⟩, Direction.east, Chirality.clockwise⟩
    (initialState ⟨0, 0⟩ (fun _ => 0) false) (OpenNode.goal ⟨2, 0⟩) 0 rfl).2
    (fun _ hc => Option.noConfusion hc)

/-! ### C4 -/

/-- C4: a jump point `(p, d, c)` is classified as forced if and only if the
cell at `p + c.rotate(d, -1)` is impassable and the cell at `p + d` is
passable. -/
theorem C4_is_forced_iff (jp : JumpPoint) (passable : Pos → Bool) :
    jp.is_forced passable = true ↔
      (passable (jp.pos + (jp.chirality.rotate jp.direction (-1)).toVec) = false ∧
        passable (jp.pos + jp.direction.toVec) = true) := by
  unfold JumpPoint.is_forced
  rw [Bool.and_eq_true, Bool.not_eq_true']

theorem C4_witness :
    JumpPoint.is_forced ⟨⟨0, 0⟩, Direction.east, Chirality.clockwise⟩
      (fun q => !(q == (⟨1, 1⟩ : Pos))) = true :=
  (C4_is_forced_iff ⟨⟨0, 0⟩, Direction.east, Chirality.clockwise⟩
    (fun q => !(q == (⟨1, 1⟩ : Pos)))).mpr ⟨by decide, by decide⟩

/-! ### C7 -/

/-- C7: when the origin does not satisfy the goal test, `jps` proceeds from an
initial state whose priority queue holds exactly eight jump points at the
origin — one per direction, in `DIRECTIONS` order, all with the chirality
selected by `flip` (counterclockwise when true, clockwise when false) and all
with priority `heuristic origin` — and whose cost map records exactly
`cost[origin] = 0`. -/
theorem C7_initial_seeds (origin : Pos) (g p : Pos → Bool) (h : Pos → Nat)
    (flip : Bool) (fuel : Nat) (hog : g origin = false) :
    jps origin g p h flip fuel =
      jpsLoop g p h fuel fuel (initialState origin h flip) ∧
    (initialState origin h flip).openHeap = DIRECTIONS.map (fun d =>
      (OpenNode.jumpPoint ⟨origin, d,
        if flip then Chirality.counterclockwise else Chirality.clockwise⟩, h origin)) ∧
    DIRECTIONS.length = 8 ∧
    DIRECTIONS.Nodup ∧
    (initialState origin h flip).costs origin = some 0 ∧
    (∀ q, q ≠ origin → (initialState origin h flip).costs q = none) := by
  refine ⟨by simp [jps, hog], rfl, rfl, by decide,
    updateMap_self (fun _ => none) origin 0, ?_⟩
  intro q hq
  exact updateMap_ne (fun _ => none) origin 0 hq

theorem C7_witness :
    jps ⟨0, 0⟩ corridorGoal corridorPassable corridorHeuristic false 3 =
      jpsLoop corridorGoal corridorPassable corridorHeuristic 3 3
        (initialState ⟨0, 0⟩ corridorHeuristic false) ∧
    (initialState ⟨0, 0⟩ corridorHeuristic false).costs ⟨0, 0⟩ = some 0 :=
  ⟨(C7_initial_seeds ⟨0, 0⟩ corridorGoal corridorPassable corridorHeuristic false 3
      (by decide)).1,
   (C7_initial_seeds ⟨0, 0⟩ corridorGoal corridorPassable corridorHeuristic false 3
      (by decide)).2.2.2.2.1⟩

/-! ### C8 -/

/-- C8: if the origin satisfies the goal test, `jps` returns the one-element
path `[origin]` immediately, for every fuel bound — in particular with fuel 0,
so no queue, cost-map or parent-map activity can be involved. -/
theorem C8_origin_goal (origin : Pos) (g p : Pos → Bool) (h : Pos → Nat)
    (flip : Bool) (hog : g origin = true) :
    ∀ fuel, jps origin g p h flip fuel = some (some [origin]) := by
  intro fuel
  simp [jps, hog]

theorem C8_witness :
    jps ⟨2, 0⟩ corridorGoal corridorPassable corridorHeuristic false 0 =
      some (some [⟨2, 0⟩]) :=
  C8_origin_goal ⟨2, 0⟩ corridorGoal corridorPassable corridorHeuristic false
    (by decide) 0

/-! ### C10 -/

/-- C10: every `Goal(q)` node emitted by the expansion engine — along a stem by
`for_each_neighbor` or along a leaf by `for_each_leaf_neighbor` — satisfies
both `passable q` and `is_goal q` (the passability check precedes the goal
check); consequently, when the origin is not a goal, the goal position at the
head of any returned path is passable, so a goal lying on an impassable cell
can only ever be returned as the origin itself. -/
theorem C10_goal_emissions (g p : Pos → Bool) :
    (∀ (root : Pos) (dir : Direction) (fuel len : Nat) (ns : List OpenNode),
      for_each_leaf_neighbor g p root dir fuel len = some ns →
      ∀ q, OpenNode.goal q ∈ ns → p q = true ∧ g q = true) ∧
    (∀ (jp : JumpPoint) (fuel : Nat) (ns : List OpenNode),
      jp.for_each_neighbor g p fuel = some ns →
      ∀ q, OpenNode.goal q ∈ ns → p q = true ∧ g q = true) ∧
    (∀ (origin : Pos) (h : Pos → Nat) (flip : Bool) (fuel : Nat)
      (path : List Pos) (gp : Pos),
      g origin = false → jps origin g p h flip fuel = some (some path) →
      path.head? = some gp → p gp = true ∧ g gp = true) := by
  refine ⟨?_, ?_, ?_⟩
  · intro root dir fuel len ns hscan q hq
    obtain ⟨k, hk1, hk2, hk3, hk4⟩ :=
      for_each_leaf_neighbor_sound g p root dir fuel len ns hscan _ hq
    have hqpos : (OpenNode.goal q).pos = q := rfl
    rw [hqpos] at hk2
    refine ⟨?_, hk4 q rfl⟩
    rw [hk2]
    exact hk3 k hk1 (le_refl _)
  · intro jp fuel ns hscan q hq
    obtain ⟨_, _, _, _, _, hpass, hgoal, _, _⟩ :=
      for_each_neighbor_sound g p jp fuel ns hscan _ hq
    exact ⟨hpass, hgoal q rfl⟩
  · intro origin h flip fuel path gp hog hrun hhead
    have hrun' : jpsLoop g p h fuel fuel (initialState origin h flip) = some (some path) := by
      rw [jps, hog] at hrun
      simpa using hrun
    obtain ⟨gp', hp', hg', hhead', _⟩ :=
      jpsLoop_path_sound h fuel hog fuel (initialState origin h flip) path
        (initialState_inv origin g p h flip) hrun'
    rw [hhead] at hhead'
    injection hhead' with he
    rw [he]
    exact ⟨hp', hg'⟩

theorem C10_witness :
    corridorPassable ⟨2, 0⟩ = true ∧ corridorGoal ⟨2, 0⟩ = true :=
  (C10_goal_emissions corridorGoal corridorPassable).2.1
    ⟨⟨0, 0⟩, Direction.east, Chirality.clockwise⟩ 5 [OpenNode.goal ⟨2, 0⟩]
    (by decide) ⟨2, 0⟩ (by decide)

/-! ### C5 -/

/-- One iteration of the `jps` main loop that expands a jump point (goal pops
return immediately and do not change the state). -/
def JpsStep (g p : Pos → Bool) (h : Pos → Nat) (sf : Nat)
    (st st' : SearchState) : Prop :=
  ∃ curr pri rest ns,
    MinHeap.pop st.openHeap = some ((OpenNode.jumpPoint curr, pri), rest) ∧
    curr.for_each_neighbor g p sf = some ns ∧
    st' = ns.foldl (jpsVisit h curr) { st with openHeap := rest }

/-- The states the `jps` main loop can be in: the initial state, or any number
of expansion steps later. -/
inductive JpsReachable (origin : Pos) (g p : Pos → Bool) (h : Pos → Nat)
    (flip : Bool) (sf : Nat) : SearchState → Prop
  | init : JpsReachable origin g p h flip sf (initialState origin h flip)
  | step {st st' : SearchState} : JpsReachable origin g p h flip sf st →
      JpsStep g p h sf st st' → JpsReachable origin g p h flip sf st'

/-- The full invariant holds at every reachable state. -/
theorem reachable_inv {origin : Pos} {g p : Pos → Bool} {h : Pos → Nat}
    {flip : Bool} {sf : Nat} {st : SearchState}
    (hr : JpsReachable origin g p h flip sf st) : SearchInv origin g p st := by
  induction hr with
  | init => exact initialState_inv origin g p h flip
  | step _ hstep ih =>
    obtain ⟨curr, pri, rest, ns, hpop, hscan, hst⟩ := hstep
    rw [hst]
    exact jpsStep_inv h sf _ curr pri rest ns ih hpop hscan

/-- C5: at every point during an invocation of `jps` (every reachable state of
its main loop), the positions carrying a best-cost entry are exactly the
positions carrying a parent entry plus the origin, and the origin itself never
acquires a parent entry. -/
theorem C5_cost_parent_domains (origin : Pos) (g p : Pos → Bool) (h : Pos → Nat)
    (flip : Bool) (sf : Nat) (st : SearchState)
    (hr : JpsReachable origin g p h flip sf st) :
    (∀ q, (st.costs q).isSome ↔ ((st.parents q).isSome ∨ q = origin)) ∧
      st.parents origin = none := by
  have inv := reachable_inv hr
  exact ⟨inv.dom, inv.origin_no_parent⟩

theorem C5_witness :
    (∀ q, ((initialState ⟨0, 0⟩ corridorHeuristic false).costs q).isSome ↔
      (((initialState ⟨0, 0⟩ corridorHeuristic false).parents q).isSome ∨ q = ⟨0, 0⟩)) ∧
    (initialState ⟨0, 0⟩ corridorHeuristic false).parents ⟨0, 0⟩ = none :=
  C5_cost_parent_domains ⟨0, 0⟩ corridorGoal corridorPassable corridorHeuristic
    false 5 (initialState ⟨0, 0⟩ corridorHeuristic false) JpsReachable.init

/-! ### C1 -/

/-- C1 counterexample: on the corridor `(0,0)-(1,0)-(2,0)` with goal `(2,0)`
and origin `(0,0)` (not a goal), `jps` returns `[(2,0), (1,0)]`: the sequence
ends at `(1,0)`, one step short of the origin — the origin is not its last
element. -/
theorem C1_counterexample :
    corridorGoal ⟨0, 0⟩ = false ∧
    jps ⟨0, 0⟩ corridorGoal corridorPassable corridorHeuristic false 30 =
      some (some [⟨2, 0⟩, ⟨1, 0⟩]) ∧
    ([(⟨2, 0⟩ : Pos), ⟨1, 0⟩] : List Pos).getLast? = some ⟨1, 0⟩ ∧
    ((⟨1, 0⟩ : Pos) ≠ ⟨0, 0⟩) := by
  refine ⟨by decide, by decide, by decide, by decide⟩

/-- C1 (amended): for every successful search whose origin does not satisfy
the goal test, the returned sequence is ordered from goal to origin: its first
element is the (passable) goal position that was reached, and its last element
is one unit step away from the origin; the origin itself is not an endpoint of
the sequence. -/
theorem C1_path_endpoints (origin : Pos) (g p : Pos → Bool) (h : Pos → Nat)
    (flip : Bool) (fuel : Nat) (path : List Pos)
    (hog : g origin = false)
    (hrun : jps origin g p h flip fuel = some (some path)) :
    (∃ gp, path.head? = some gp ∧ g gp = true ∧ p gp = true) ∧
    (∃ d : Direction, path.getLast? = some (origin + d.toVec)) ∧
    path ≠ [] ∧ path.getLast? ≠ some origin := by
  have hrun' : jpsLoop g p h fuel fuel (initialState origin h flip) =
      some (some path) := by
    rw [jps, hog] at hrun
    simpa using hrun
  obtain ⟨gp, hpgp, hggp, hhead, d, hlast⟩ :=
    jpsLoop_path_sound h fuel hog fuel (initialState origin h flip) path
      (initialState_inv origin g p h flip) hrun'
  refine ⟨⟨gp, hhead, hggp, hpgp⟩, ⟨d, hlast⟩, ?_, ?_⟩
  · intro hnil
    rw [hnil] at hhead
    exact Option.noConfusion hhead
  · intro hcontra
    rw [hlast] at hcontra
    injection hcontra with he
    exact Direction.toVec_ne_zero d ((Pos.add_eq_self_iff origin d.toVec).mp he)

theorem C1_witness :
    (∃ gp, ([(⟨2, 0⟩ : Pos), ⟨1, 0⟩] : List Pos).head? = some gp ∧
      corridorGoal gp = true ∧ corridorPassable gp = true) ∧
    (∃ d : Direction,
      ([(⟨2, 0⟩ : Pos), ⟨1, 0⟩] : List Pos).getLast? = some (⟨0, 0⟩ + d.toVec)) ∧
    ([(⟨2, 0⟩ : Pos), ⟨1, 0⟩] : List Pos) ≠ [] ∧
    ([(⟨2, 0⟩ : Pos), ⟨1, 0⟩] : List Pos).getLast? ≠ some ⟨0, 0⟩ :=
  C1_path_endpoints ⟨0, 0⟩ corridorGoal corridorPassable corridorHeuristic false 30
    [⟨2, 0⟩, ⟨1, 0⟩] (by decide) (by decide)

/-! ### C6 -/

/-- C6: one reconstruction step of `construct_path` at a child `pos` whose
parent is the jump point `(parent_pos, stem_direction, chirality)`: with the
offset `pos - parent_pos` decomposed as `stem_direction * s + leaf_direction * l`
(where `leaf_direction = chirality.rotate(stem_direction, 1)`), the step
appends the leaf-run positions in descending leaf offset (from `l` down to 1,
measured from the stem tip) and then the stem-run positions in descending stem
offset (from `s` down to 1, measured from `parent_pos`), and continues the walk
from `parent_pos`; a position with no parent ends the walk. -/
theorem C6_reconstruction_step (parents : Pos → Option JumpPoint) (pos : Pos)
    (jp : JumpPoint) (f : Nat) (s l : Int)
    (hpar : parents pos = some jp) (_hs : 1 ≤ s) (_hl : 0 ≤ l)
    (hform : pos = jp.pos + (jp.direction.scale s +
      (jp.chirality.rotate jp.direction 1).scale l)) :
    construct_path parents (f + 1) pos =
      (construct_path parents f jp.pos).map (fun rest =>
        ((List.range l.toNat).reverse.map (fun i : Nat =>
          (jp.pos + jp.direction.scale s) +
            (jp.chirality.rotate jp.direction 1).scale ((i : Int) + 1))) ++
        ((List.range s.toNat).reverse.map (fun i : Nat =>
          jp.pos + jp.direction.scale ((i : Int) + 1))) ++ rest) ∧
    (∀ pos', parents pos' = none → construct_path parents (f + 1) pos' = some []) :=
  ⟨construct_path_parent_eq parents pos jp f s l hpar hform,
   fun pos' hnone => construct_path_root_eq parents pos' f hnone⟩

theorem C6_witness :
    construct_path
      (updateMap (fun _ => none) ⟨2, 0⟩ ⟨⟨0, 0⟩, Direction.east, Chirality.clockwise⟩)
      2 ⟨2, 0⟩ =
      (construct_path
        (updateMap (fun _ => none) ⟨2, 0⟩ ⟨⟨0, 0⟩, Direction.east, Chirality.clockwise⟩)
        1 ⟨0, 0⟩).map (fun rest =>
        ((List.range (0 : Int).toNat).reverse.map (fun i : Nat =>
          ((⟨0, 0⟩ : Pos) + Direction.east.scale 2) +
            (Chirality.clockwise.rotate Direction.east 1).scale ((i : Int) + 1))) ++
        ((List.range (2 : Int).toNat).reverse.map (fun i : Nat =>
          (⟨0, 0⟩ : Pos) + Direction.east.scale ((i : Int) + 1))) ++ rest) :=
  (C6_reconstruction_step
    (updateMap (fun _ => none) ⟨2, 0⟩ ⟨⟨0, 0⟩, Direction.east, Chirality.clockwise⟩)
    ⟨2, 0⟩ ⟨⟨0, 0⟩, Direction.east, Chirality.clockwise⟩ 1 2 0
    (updateMap_self _ _ _) (by decide) (by decide) (by decide)).1

/-! ### C9 infrastructure -/

theorem Direction.scale_add (d : Direction) (a b : Int) :
    d.scale (a + b) = d.scale a + d.scale b := by
  simp only [Direction.scale, Pos.add_def, Pos.mk.injEq]
  constructor <;> ring

/-- Peel the final unit step off the leaf run of an L-shaped offset. -/
theorem split_last_leaf_step (a : Pos) (u w : Direction) (sv lprev lv : Int)
    (hl : lprev + 1 = lv) :
    a + (u.scale sv + w.scale lv) = ((a + u.scale sv) + w.scale lprev) + w.toVec := by
  subst hl
  cases a
  simp only [Direction.scale, Pos.add_def, Pos.mk.injEq]
  constructor <;> ring

/-- Every unit step can be undone by a step in some (opposite) direction. -/
theorem Direction.exists_opp (d : Direction) :
    ∃ d' : Direction, ∀ a : Pos, a = (a + d.toVec) + d'.toVec := by
  have key : ∀ (v w : Pos), v.x + w.x = 0 → v.y + w.y = 0 →
      ∀ a : Pos, a = (a + v) + w := by
    intro v w hx hy a
    cases a
    cases v
    cases w
    simp only [Pos.add_def, Pos.mk.injEq] at *
    constructor <;> omega
  cases d with
  | north => exact ⟨.south, key _ _ (by decide) (by decide)⟩
  | northeast => exact ⟨.southwest, key _ _ (by decide) (by decide)⟩
  | east => exact ⟨.west, key _ _ (by decide) (by decide)⟩
  | southeast => exact ⟨.northwest, key _ _ (by decide) (by decide)⟩
  | south => exact ⟨.north, key _ _ (by decide) (by decide)⟩
  | southwest => exact ⟨.northeast, key _ _ (by decide) (by decide)⟩
  | west => exact ⟨.east, key _ _ (by decide) (by decide)⟩
  | northwest => exact ⟨.southeast, key _ _ (by decide) (by decide)⟩

/-- When every goal cell is fully enclosed by impassable cells and no goal is
adjacent to the origin, a neighbor scan of any queue jump point (whose position
is the origin or passable) emits no `Goal` node. -/
theorem scan_goal_free {origin : Pos} {g p : Pos → Bool}
    (hEnc : ∀ q (d : Direction), g q = true → p (q + d.toVec) = false)
    (hAdj : ∀ d : Direction, g (origin + d.toVec) = false)
    (jp : JumpPoint) (hjp : jp.pos = origin ∨ p jp.pos = true)
    (sf : Nat) (ns : List OpenNode) (hscan : jp.for_each_neighbor g p sf = some ns) :
    ∀ q, OpenNode.goal q ∉ ns := by
  intro q hq
  obtain ⟨s, l, hs1, hform, _, hstem, hleaf, hgcl⟩ :=
    for_each_neighbor_from_sound g p jp sf sf 1 ns hscan _ hq
  have hgq : g q = true := hgcl q rfl
  have hqpos : (OpenNode.goal q).pos = q := rfl
  rw [hqpos] at hform
  by_cases hl0 : l = 0
  · -- the goal was hit on the stem
    subst hl0
    have hform' : q = jp.pos + jp.direction.scale (s : Int) := by
      rw [hform]
      simp [Direction.scale_zero, Pos.add_zero']
    by_cases hs1' : s = 1
    · -- the goal is adjacent to the jump point itself
      subst hs1'
      rw [show ((1 : Nat) : Int) = 1 from rfl, Direction.scale_one] at hform'
      cases hjp with
      | inl horigin =>
        rw [horigin] at hform'
        rw [hform'] at hgq
        rw [hAdj jp.direction] at hgq
        exact Bool.noConfusion hgq
      | inr hpass =>
        obtain ⟨d', hd'⟩ := Direction.exists_opp jp.direction
        have heq : jp.pos = q + d'.toVec := by
          rw [hform']
          exact hd' jp.pos
        rw [heq, hEnc q d' hgq] at hpass
        exact Bool.noConfusion hpass
    · -- the previous stem cell is passable yet adjacent to the goal
      have hprev : p (jp.pos + jp.direction.scale ((s - 1 : Nat) : Int)) = true :=
        hstem (s - 1) (by omega) (by omega)
      have hcast : ((s - 1 : Nat) : Int) + 1 = (s : Int) := by omega
      have hsplit : q = (jp.pos + jp.direction.scale ((s - 1 : Nat) : Int)) +
          jp.direction.toVec := by
        rw [hform', Pos.add_assoc', ← Direction.scale_one jp.direction,
          ← Direction.scale_add, hcast]
      obtain ⟨d', hd'⟩ := Direction.exists_opp jp.direction
      have heq : jp.pos + jp.direction.scale ((s - 1 : Nat) : Int) = q + d'.toVec := by
        rw [hsplit]
        exact hd' _
      rw [heq, hEnc q d' hgq] at hprev
      exact Bool.noConfusion hprev
  · -- the goal was hit on a leaf
    have hl1 : 1 ≤ l := by omega
    have hform' : q = (jp.pos + jp.direction.scale (s : Int)) +
        (jp.chirality.rotate jp.direction 1).scale (l : Int) := by
      rw [hform, Pos.add_assoc']
    have hcast : ((l - 1 : Nat) : Int) + 1 = (l : Int) := by omega
    have hsplit : q = ((jp.pos + jp.direction.scale (s : Int)) +
        (jp.chirality.rotate jp.direction 1).scale ((l - 1 : Nat) : Int)) +
        (jp.chirality.rotate jp.direction 1).toVec := by
      rw [hform]
      exact split_last_leaf_step jp.pos jp.direction (jp.chirality.rotate jp.direction 1)
        (s : Int) ((l - 1 : Nat) : Int) (l : Int) hcast
    have hprev : p ((jp.pos + jp.direction.scale (s : Int)) +
        (jp.chirality.rotate jp.direction 1).scale ((l - 1 : Nat) : Int)) = true := by
      by_cases hl1' : l = 1
      · subst hl1'
        have hzero : (jp.chirality.rotate jp.direction 1).scale (((1 : Nat) - 1 : Nat) : Int) =
            ⟨0, 0⟩ := by
          norm_num [Direction.scale_zero]
        rw [hzero, Pos.add_zero']
        exact hstem s hs1 (le_refl _)
      · exact hleaf (l - 1) (by omega) (by omega)
    obtain ⟨d', hd'⟩ := Direction.exists_opp (jp.chirality.rotate jp.direction 1)
    have heq : (jp.pos + jp.direction.scale (s : Int)) +
        (jp.chirality.rotate jp.direction 1).scale ((l - 1 : Nat) : Int) = q + d'.toVec := by
      rw [hsplit]
      exact hd' _
    rw [heq, hEnc q d' hgq] at hprev
    exact Bool.noConfusion hprev

/-- The open heap contains no `Goal` nodes. -/
def NoGoalHeap (st : SearchState) : Prop :=
  ∀ q pri, (OpenNode.goal q, pri) ∉ st.openHeap

/-- `jpsVisit` leaves the heap unchanged or pushes exactly the visited node. -/
theorem jpsVisit_heap_cases (h : Pos → Nat) (curr : JumpPoint) (st : SearchState)
    (n : OpenNode) :
    (jpsVisit h curr st n).openHeap = st.openHeap ∨
    ∃ pri, (jpsVisit h curr st n).openHeap = MinHeap.push st.openHeap n pri := by
  unfold jpsVisit
  cases hc : st.costs n.pos with
  | some cost =>
    by_cases hgt : (st.costs curr.pos).getD 0 + n.pos.distance curr.pos > cost
    · simp only [hc, if_pos hgt]
      exact Or.inl trivial
    · simp only [hc, if_neg hgt]
      exact Or.inr ⟨_, rfl⟩
  | none =>
    simp only [hc]
    exact Or.inr ⟨_, rfl⟩

/-- Elements of the heap after a neighbor fold came from the initial heap or
carry one of the emitted nodes. -/
theorem foldl_heap_mem (h : Pos → Nat) (curr : JumpPoint) :
    ∀ (ns : List OpenNode) (st : SearchState) (y : OpenNode × Nat),
      y ∈ (ns.foldl (jpsVisit h curr) st).openHeap →
      y ∈ st.openHeap ∨ ∃ n ∈ ns, y.1 = n := by
  intro ns
  induction ns with
  | nil =>
    intro st y hy
    exact Or.inl hy
  | cons n ns ih =>
    intro st y hy
    rcases ih (jpsVisit h curr st n) y hy with hmem | ⟨m, hm, hym⟩
    · rcases jpsVisit_heap_cases h curr st n with hsame | ⟨pri, hpush⟩
      · rw [hsame] at hmem
        exact Or.inl hmem
      · rw [hpush, MinHeap.mem_push] at hmem
        cases hmem with
        | inl hold => exact Or.inl hold
        | inr hnew =>
          refine Or.inr ⟨n, List.mem_cons_self n ns, ?_⟩
          rw [hnew]
    · exact Or.inr ⟨m, List.mem_cons_of_mem n hm, hym⟩

/-- The characterization of runs that exhaust the frontier without ever
popping a `Goal` node: each iteration pops a jump point and expands it, until
the queue is empty. -/
inductive NoGoalExhaust (g p : Pos → Bool) (h : Pos → Nat) (sf : Nat) :
    Nat → SearchState → Prop
  | empty {fuel : Nat} {st : SearchState} :
      MinHeap.pop st.openHeap = none → NoGoalExhaust g p h sf (fuel + 1) st
  | expand {fuel : Nat} {st : SearchState} {curr : JumpPoint} {pri : Nat}
      {rest : MinHeap OpenNode} {ns : List OpenNode} :
      MinHeap.pop st.openHeap = some ((OpenNode.jumpPoint curr, pri), rest) →
      curr.for_each_neighbor g p sf = some ns →
      NoGoalExhaust g p h sf fuel (ns.foldl (jpsVisit h curr) { st with openHeap := rest }) →
      NoGoalExhaust g p h sf (fuel + 1) st

/-- The main loop answers "no path" exactly on the no-goal-exhaustion runs. -/
theorem jpsLoop_none_iff (g p : Pos → Bool) (h : Pos → Nat) (sf : Nat) :
    ∀ (fuel : Nat) (st : SearchState),
      jpsLoop g p h sf fuel st = some none ↔ NoGoalExhaust g p h sf fuel st := by
  intro fuel
  induction fuel with
  | zero =>
    intro st
    constructor
    · intro hrun
      simp [jpsLoop] at hrun
    · intro hng
      cases hng
  | succ fuel ih =>
    intro st
    constructor
    · intro hrun
      cases hpop : MinHeap.pop st.openHeap with
      | none => exact NoGoalExhaust.empty hpop
      | some x =>
        obtain ⟨⟨node, pri⟩, rest⟩ := x
        cases node with
        | goal gp =>
          rw [jpsLoop_pop_goal hpop] at hrun
          cases hcp : construct_path st.parents (fuel + 1) gp with
          | none => rw [hcp] at hrun; simp at hrun
          | some path' => rw [hcp] at hrun; simp at hrun
        | jumpPoint curr =>
          rw [jpsLoop_pop_jp hpop] at hrun
          cases hscan : curr.for_each_neighbor g p sf with
          | none => rw [hscan] at hrun; simp at hrun
          | some ns =>
            rw [hscan] at hrun
            exact NoGoalExhaust.expand hpop hscan ((ih _).mp hrun)
    · intro hng
      cases hng with
      | empty hpop => exact jpsLoop_pop_none hpop
      | expand hpop hscan htail =>
        rw [jpsLoop_pop_jp hpop, hscan]
        exact (ih _).mpr htail

/-- Under the enclosure hypotheses, the loop never returns a path from a state
whose heap has no `Goal` node and satisfies the invariant. -/
theorem jpsLoop_enclosed_none {origin : Pos} {g p : Pos → Bool} (h : Pos → Nat)
    (sf : Nat)
    (hEnc : ∀ q (d : Direction), g q = true → p (q + d.toVec) = false)
    (hAdj : ∀ d : Direction, g (origin + d.toVec) = false) :
    ∀ (fuel : Nat) (st : SearchState), SearchInv origin g p st → NoGoalHeap st →
      ∀ r, jpsLoop g p h sf fuel st = some r → r = none := by
  intro fuel
  induction fuel with
  | zero =>
    intro st _ _ r hrun
    simp [jpsLoop] at hrun
  | succ fuel ih =>
    intro st inv hng r hrun
    cases hpop : MinHeap.pop st.openHeap with
    | none =>
      rw [jpsLoop_pop_none hpop] at hrun
      injection hrun with h'
      exact h'.symm
    | some x =>
      obtain ⟨⟨node, pri⟩, rest⟩ := x
      cases node with
      | goal gp =>
        exact absurd (mem_of_pop_rest hpop).2 (hng gp pri)
      | jumpPoint curr =>
        rw [jpsLoop_pop_jp hpop] at hrun
        cases hscan : curr.for_each_neighbor g p sf with
        | none =>
          rw [hscan] at hrun
          simp at hrun
        | some ns =>
          rw [hscan] at hrun
          have inv' := jpsStep_inv h sf st curr pri rest ns inv hpop hscan
          have hjp := (inv.queue_jp curr pri (mem_of_pop_rest hpop).2).2
          have hng' : NoGoalHeap
              (ns.foldl (jpsVisit h curr) { st with openHeap := rest }) := by
            intro q pri' hmem
            rcases foldl_heap_mem h curr ns _ _ hmem with hold | ⟨n, hn, hyn⟩
            · exact hng q pri' ((mem_of_pop_rest hpop).1 _ hold)
            · have hgn : OpenNode.goal q ∈ ns := by
                rw [← hyn] at hn
                exact hn
              exact scan_goal_free hEnc hAdj curr hjp sf ns hscan q hgn
          exact ih _ inv' hng' r hrun

/-- The initial heap holds only jump points. -/
theorem initialState_no_goal (origin : Pos) (h : Pos → Nat) (flip : Bool) :
    NoGoalHeap (initialState origin h flip) := by
  intro q pri hmem
  rw [initialState_heap, List.mem_map] at hmem
  obtain ⟨d, _, hd⟩ := hmem
  have : OpenNode.initial origin d flip = OpenNode.goal q := congrArg Prod.fst hd
  exact absurd this (by simp [OpenNode.initial])

/-! ### C9 -/

/-- C9 counterexample: the goal `(1,0)` is fully enclosed by impassable cells
(only the goal cell itself is passable), the origin `(0,0)` is not a goal, yet
`jps` returns the path `[(1,0)]` rather than `None` — because the origin,
whose own passability is never tested, sits adjacent to the goal inside the
enclosure. -/
theorem C9_counterexample :
    (∀ q, enclosedGoal q = true → ∀ d : Direction, enclosedPassable (q + d.toVec) = false) ∧
    enclosedGoal ⟨0, 0⟩ = false ∧
    jps ⟨0, 0⟩ enclosedGoal enclosedPassable (fun _ => 0) false 30 =
      some (some [⟨1, 0⟩]) := by
  refine ⟨?_, by decide, by decide⟩
  intro q hq d
  have hq' : q = ⟨1, 0⟩ := by
    have := of_decide_eq_true (by exact hq)
    exact this
  subst hq'
  cases d <;> decide

/-- C9 (amended): the main loop returns `None` exactly when the priority queue
empties without a `Goal` node ever being popped; and if every goal position is
fully enclosed by impassable cells, the origin is not a goal, and no goal is
adjacent to the origin, then `jps` never returns a path — whenever it
terminates its result is `None`. -/
theorem C9_none_characterization (g p : Pos → Bool) (h : Pos → Nat) :
    (∀ (sf fuel : Nat) (st : SearchState),
      jpsLoop g p h sf fuel st = some none ↔ NoGoalExhaust g p h sf fuel st) ∧
    (∀ (origin : Pos) (flip : Bool),
      (∀ q (d : Direction), g q = true → p (q + d.toVec) = false) →
      (∀ d : Direction, g (origin + d.toVec) = false) →
      g origin = false →
      ∀ (fuel : Nat) (r : Option (List Pos)),
        jps origin g p h flip fuel = some r → r = none) := by
  constructor
  · intro sf fuel st
    exact jpsLoop_none_iff g p h sf fuel st
  · intro origin flip hEnc hAdj hog fuel r hrun
    have hrun' : jpsLoop g p h fuel fuel (initialState origin h flip) = some r := by
      rw [jps, hog] at hrun
      simpa using hrun
    exact jpsLoop_enclosed_none h fuel hEnc hAdj fuel (initialState origin h flip)
      (initialState_inv origin g p h flip) (initialState_no_goal origin h flip) r hrun'

theorem C9_witness :
    (none : Option (List Pos)) = none ∧
    NoGoalExhaust enclosedGoal enclosedPassable (fun _ => 0) 30 30
      (initialState ⟨5, 5⟩ (fun _ => 0) false) := by
  constructor
  · refine (C9_none_characterization enclosedGoal enclosedPassable (fun _ => 0)).2
      ⟨5, 5⟩ false ?_ (by intro d; cases d <;> decide) (by decide) 30 none (by decide)
    intro q d hq
    have hq' : q = ⟨1, 0⟩ := of_decide_eq_true (by exact hq)
    subst hq'
    cases d <;> decide
  · exact ((C9_none_characterization enclosedGoal enclosedPassable (fun _ => 0)).1
      30 30 (initialState ⟨5, 5⟩ (fun _ => 0) false)).mp (by decide)

/-! ### C3 -/

/-- On an everywhere-passable grid with an unsatisfiable goal test, a leaf scan
never exits: it runs out of any finite fuel. -/
theorem leafscan_diverges (root : Pos) (dir : Direction) :
    ∀ fuel len, for_each_leaf_neighbor (fun _ => false) (fun _ => true)
      root dir fuel len = none := by
  intro fuel
  induction fuel with
  | zero => intro len; rfl
  | succ fuel ih =>
    intro len
    rw [for_each_leaf_neighbor_interior rfl rfl, ih (len + 1)]
    rfl

/-- Likewise, a stem scan never exits on an everywhere-passable grid with an
unsatisfiable goal test. -/
theorem stemscan_diverges (jp : JumpPoint) (lf : Nat) :
    ∀ fuel len, jp.for_each_neighbor_from (fun _ => false) (fun _ => true)
      lf fuel len = none := by
  intro fuel len
  cases fuel with
  | zero => rfl
  | succ fuel =>
    rw [for_each_neighbor_from_interior rfl rfl, leafscan_diverges]

/-- C3 counterexample: with an everywhere-passable grid, a goal test that is
never satisfied, origin `(0,0)` and `flip = false`, the invocation of `jps`
never completes: no fuel bound suffices (the first popped jump point's
unbounded `for len in 1..` scan never exits). -/
theorem C3_counterexample :
    ¬ ∃ fuel, (jps ⟨0, 0⟩ (fun _ => false) (fun _ => true)
      (fun _ => 0) false fuel).isSome = true := by
  rintro ⟨fuel, hsome⟩
  have hnone : jps ⟨0, 0⟩ (fun _ => false) (fun _ => true) (fun _ => 0) false fuel =
      none := by
    cases fuel with
    | zero => rfl
    | succ fuel =>
      have hjps : jps ⟨0, 0⟩ (fun _ => false) (fun _ => true) (fun _ => 0) false
          (fuel + 1) = jpsLoop (fun _ => false) (fun _ => true) (fun _ => 0)
          (fuel + 1) (fuel + 1) (initialState ⟨0, 0⟩ (fun _ => 0) false) := by
        simp [jps]
      rw [hjps]
      cases hpop : MinHeap.pop (initialState ⟨0, 0⟩ (fun _ => 0) false).openHeap with
      | none =>
        have := (MinHeap.pop_eq_none_iff _).mp hpop
        rw [initialState_heap] at this
        exact absurd this (by decide)
      | some x =>
        obtain ⟨⟨node, pri⟩, rest⟩ := x
        cases node with
        | goal gp =>
          exact absurd (mem_of_pop_rest hpop).2
            (initialState_no_goal ⟨0, 0⟩ (fun _ => 0) false gp pri)
        | jumpPoint curr =>
          rw [jpsLoop_pop_jp hpop]
          have hscan : curr.for_each_neighbor (fun _ => false) (fun _ => true)
              (fuel + 1) = none :=
            stemscan_diverges curr (fuel + 1) (fuel + 1) 1
          rw [hscan]
  rw [hnone] at hsome
  exact Bool.noConfusion hsome

/-! ### C3 (amended): termination on finite passable regions.
First: every scan halts once the passable cells lie in a finite set. -/

/-- The scan along `dir` from `root` stops at offset `j`: the cell is
impassable or satisfies the goal test. -/
def scanStop (g p : Pos → Bool) (root : Pos) (dir : Direction) (j : Nat) : Prop :=
  p (root + dir.scale (j : Int)) = false ∨ g (root + dir.scale (j : Int)) = true

theorem Direction.scale_inj (d : Direction) {a b : Int} (h : d.scale a = d.scale b) :
    a = b := by
  cases d <;>
    (simp only [Direction.scale, Direction.toVec, Pos.mk.injEq] at h; omega)

theorem Pos.add_left_cancel' {a v w : Pos} (h : a + v = a + w) : v = w := by
  cases a; cases v; cases w
  simp only [Pos.add_def, Pos.mk.injEq] at *
  constructor <;> omega

/-- Pigeonhole: when every passable cell lies in the finite set `S`, any ray
stops within `S.card` further steps. -/
theorem exists_scan_stop (g p : Pos → Bool) (S : Finset Pos)
    (hP : ∀ q, p q = true → q ∈ S) (root : Pos) (dir : Direction) (len : Nat) :
    ∃ j, len ≤ j ∧ j ≤ len + S.card ∧ scanStop g p root dir j := by
  by_contra hcon
  push_neg at hcon
  have hmem : ∀ j ∈ Finset.Icc len (len + S.card), root + dir.scale (j : Int) ∈ S := by
    intro j hj
    rw [Finset.mem_Icc] at hj
    have hns := hcon j hj.1 hj.2
    rw [scanStop] at hns
    push_neg at hns
    have hp : p (root + dir.scale (j : Int)) = true := by
      rcases hb : p (root + dir.scale (j : Int)) with _ | _
      · exact absurd hb hns.1
      · rfl
    exact hP _ hp
  have hinj : Set.InjOn (fun j : Nat => root + dir.scale (j : Int))
      (Finset.Icc len (len + S.card)) := by
    intro a _ b _ hab
    have h1 := Pos.add_left_cancel' hab
    have h2 := Direction.scale_inj dir h1
    exact_mod_cast h2
  have hcard := Finset.card_le_card_of_injOn _ hmem hinj
  rw [Nat.card_Icc] at hcard
  omega

theorem leafscan_some_of_stop (g p : Pos → Bool) (root : Pos) (dir : Direction) :
    ∀ (fuel len : Nat), (∃ j, len ≤ j ∧ j < len + fuel ∧ scanStop g p root dir j) →
      ∃ ns, for_each_leaf_neighbor g p root dir fuel len = some ns := by
  intro fuel
  induction fuel with
  | zero =>
    rintro len ⟨j, hj1, hj2, _⟩
    omega
  | succ fuel ih =>
    rintro len ⟨j, hj1, hj2, hstop⟩
    cases hp : p (root + dir.scale (len : Int)) with
    | false => exact ⟨[], for_each_leaf_neighbor_impassable hp⟩
    | true =>
      cases hg : g (root + dir.scale (len : Int)) with
      | true => exact ⟨_, for_each_leaf_neighbor_goal hp hg⟩
      | false =>
        have hjne : j ≠ len := by
          intro he
          subst he
          cases hstop with
          | inl h' => rw [hp] at h'; exact Bool.noConfusion h'
          | inr h' => rw [hg] at h'; exact Bool.noConfusion h'
        obtain ⟨ns, hns⟩ := ih (len + 1) ⟨j, by omega, by omega, hstop⟩
        rw [for_each_leaf_neighbor_interior hp hg, hns]
        exact ⟨_, rfl⟩

theorem leafscan_stable (g p : Pos → Bool) (root : Pos) (dir : Direction) :
    ∀ (fuel fuel' len : Nat),
      (∃ j, len ≤ j ∧ j < len + fuel ∧ j < len + fuel' ∧ scanStop g p root dir j) →
      for_each_leaf_neighbor g p root dir fuel len =
        for_each_leaf_neighbor g p root dir fuel' len := by
  intro fuel
  induction fuel with
  | zero =>
    rintro fuel' len ⟨j, hj1, hj2, _, _⟩
    omega
  | succ fuel ih =>
    rintro fuel' len ⟨j, hj1, hj2, hj3, hstop⟩
    cases fuel' with
    | zero => omega
    | succ fuel' =>
      cases hp : p (root + dir.scale (len : Int)) with
      | false =>
        rw [for_each_leaf_neighbor_impassable hp, for_each_leaf_neighbor_impassable hp]
      | true =>
        cases hg : g (root + dir.scale (len : Int)) with
        | true =>
          rw [for_each_leaf_neighbor_goal hp hg, for_each_leaf_neighbor_goal hp hg]
        | false =>
          have hjne : j ≠ len := by
            intro he
            subst he
            cases hstop with
            | inl h' => rw [hp] at h'; exact Bool.noConfusion h'
            | inr h' => rw [hg] at h'; exact Bool.noConfusion h'
          rw [for_each_leaf_neighbor_interior hp hg, for_each_leaf_neighbor_interior hp hg,
            ih fuel' (len + 1) ⟨j, by omega, by omega, by omega, hstop⟩]

theorem stemscan_some_of_stop (g p : Pos → Bool) (S : Finset Pos)
    (hP : ∀ q, p q = true → q ∈ S) (jp : JumpPoint) (lf : Nat)
    (hlf : S.card + 1 ≤ lf) :
    ∀ (fuel len : Nat),
      (∃ j, len ≤ j ∧ j < len + fuel ∧ scanStop g p jp.pos jp.direction j) →
      ∃ ns, jp.for_each_neighbor_from g p lf fuel len = some ns := by
  intro fuel
  induction fuel with
  | zero =>
    rintro len ⟨j, hj1, hj2, _⟩
    omega
  | succ fuel ih =>
    rintro len ⟨j, hj1, hj2, hstop⟩
    cases hp : p (jp.pos + jp.direction.scale (len : Int)) with
    | false => exact ⟨[], for_each_neighbor_from_impassable hp⟩
    | true =>
      cases hg : g (jp.pos + jp.direction.scale (len : Int)) with
      | true => exact ⟨_, for_each_neighbor_from_goal hp hg⟩
      | false =>
        have hjne : j ≠ len := by
          intro he
          subst he
          cases hstop with
          | inl h' => rw [hp] at h'; exact Bool.noConfusion h'
          | inr h' => rw [hg] at h'; exact Bool.noConfusion h'
        obtain ⟨j0, hj01, hj02, hj0stop⟩ := exists_scan_stop g p S hP
          (jp.pos + jp.direction.scale (len : Int)) (jp.chirality.rotate jp.direction 1) 1
        obtain ⟨leafNodes, hleaf⟩ := leafscan_some_of_stop g p _ _ lf 1
          ⟨j0, hj01, by omega, hj0stop⟩
        obtain ⟨ns, hns⟩ := ih (len + 1) ⟨j, by omega, by omega, hstop⟩
        rw [for_each_neighbor_from_interior hp hg, hleaf, hns]
        exact ⟨_, rfl⟩

theorem stemscan_stable (g p : Pos → Bool) (S : Finset Pos)
    (hP : ∀ q, p q = true → q ∈ S) (jp : JumpPoint) (lf lf' : Nat)
    (hlf : S.card + 1 ≤ lf) (hlf' : S.card + 1 ≤ lf') :
    ∀ (fuel fuel' len : Nat),
      (∃ j, len ≤ j ∧ j < len + fuel ∧ j < len + fuel' ∧
        scanStop g p jp.pos jp.direction j) →
      jp.for_each_neighbor_from g p lf fuel len =
        jp.for_each_neighbor_from g p lf' fuel' len := by
  intro fuel
  induction fuel with
  | zero =>
    rintro fuel' len ⟨j, hj1, hj2, _, _⟩
    omega
  | succ fuel ih =>
    rintro fuel' len ⟨j, hj1, hj2, hj3, hstop⟩
    cases fuel' with
    | zero => omega
    | succ fuel' =>
      cases hp : p (jp.pos + jp.direction.scale (len : Int)) with
      | false =>
        rw [for_each_neighbor_from_impassable hp, for_each_neighbor_from_impassable hp]
      | true =>
        cases hg : g (jp.pos + jp.direction.scale (len : Int)) with
        | true =>
          rw [for_each_neighbor_from_goal hp hg, for_each_neighbor_from_goal hp hg]
        | false =>
          have hjne : j ≠ len := by
            intro he
            subst he
            cases hstop with
            | inl h' => rw [hp] at h'; exact Bool.noConfusion h'
            | inr h' => rw [hg] at h'; exact Bool.noConfusion h'
          obtain ⟨j0, hj01, hj02, hj0stop⟩ := exists_scan_stop g p S hP
            (jp.pos + jp.direction.scale (len : Int)) (jp.chirality.rotate jp.direction 1) 1
          rw [for_each_neighbor_from_interior hp hg, for_each_neighbor_from_interior hp hg,
            leafscan_stable g p _ _ lf lf' 1 ⟨j0, hj01, by omega, by omega, hj0stop⟩,
            ih fuel' (len + 1) ⟨j, by omega, by omega, by omega, hstop⟩]

/-- With a finite passable region, any full neighbor scan with fuel at least
`S.card + 1` returns, and its value does not depend on the exact fuel. -/
theorem for_each_neighbor_terminates (g p : Pos → Bool) (S : Finset Pos)
    (hP : ∀ q, p q = true → q ∈ S) (jp : JumpPoint) (sf : Nat)
    (hsf : S.card + 1 ≤ sf) :
    ∃ ns, jp.for_each_neighbor g p sf = some ns := by
  obtain ⟨j, hj1, hj2, hstop⟩ := exists_scan_stop g p S hP jp.pos jp.direction 1
  exact stemscan_some_of_stop g p S hP jp sf hsf sf 1 ⟨j, hj1, by omega, hstop⟩

theorem for_each_neighbor_stable (g p : Pos → Bool) (S : Finset Pos)
    (hP : ∀ q, p q = true → q ∈ S) (jp : JumpPoint) (sf sf' : Nat)
    (hsf : S.card + 1 ≤ sf) (hsf' : S.card + 1 ≤ sf') :
    jp.for_each_neighbor g p sf = jp.for_each_neighbor g p sf' := by
  obtain ⟨j, hj1, hj2, hstop⟩ := exists_scan_stop g p S hP jp.pos jp.direction 1
  exact stemscan_stable g p S hP jp sf sf' hsf hsf' sf sf' 1
    ⟨j, hj1, by omega, by omega, hstop⟩

/-- Path reconstruction results are stable under extra fuel. -/
theorem construct_path_mono (parents : Pos → Option JumpPoint) :
    ∀ (f f' : Nat) (pos : Pos) (path : List Pos), f ≤ f' →
      construct_path parents f pos = some path →
      construct_path parents f' pos = some path := by
  intro f
  induction f with
  | zero =>
    intro f' pos path _ hcp
    simp [construct_path] at hcp
  | succ f ih =>
    intro f' pos path hle hcp
    obtain ⟨f'', rfl⟩ : ∃ f'', f' = f'' + 1 := ⟨f' - 1, by omega⟩
    cases hpar : parents pos with
    | none =>
      rw [construct_path_root_eq _ _ _ hpar] at hcp
      rw [construct_path_root_eq _ _ _ hpar]
      exact hcp
    | some jp =>
      rw [construct_path] at hcp
      rw [construct_path]
      simp only [hpar] at hcp ⊢
      cases hrest : construct_path parents f jp.pos with
      | none =>
        rw [hrest] at hcp
        simp at hcp
      | some rest =>
        rw [hrest] at hcp
        rw [ih f'' jp.pos rest (by omega) hrest]
        exact hcp

/-- From any costed position of an invariant state, the parent-chain walk of
`construct_path` finishes within some fuel (costs strictly decrease along the
chain). -/
theorem construct_path_terminates {origin : Pos} {g p : Pos → Bool}
    (st : SearchState) (inv : SearchInv origin g p st) :
    ∀ (cc : Nat) (pos : Pos), st.costs pos = some cc →
      ∃ f path, construct_path st.parents f pos = some path := by
  intro cc
  induction cc using Nat.strong_induction_on with
  | _ cc ih =>
    intro pos hcost
    cases hpar : st.parents pos with
    | none => exact ⟨1, [], construct_path_root_eq _ _ 0 hpar⟩
    | some jp =>
      obtain ⟨cc2, pc2, hcc2, hpc2, hineq⟩ := inv.parent_cost pos jp hpar
      have hcceq : cc2 = cc := by
        rw [hcost] at hcc2
        injection hcc2 with h'
        exact h'.symm
      obtain ⟨s, l, hs, hl, hform⟩ := inv.parent_geom pos jp hpar
      have hne2 : pos ≠ jp.pos := by
        rw [hform]
        exact combo_pos_ne _ _ _ hs
      have hdist := Pos.one_le_distance_of_ne hne2
      obtain ⟨f, rest, hrest⟩ := ih pc2 (by omega) jp.pos hpc2
      exact ⟨f + 1, _, by
        rw [construct_path_parent_eq st.parents pos jp f s l hpar hform, hrest]
        rfl⟩

/-- Main-loop results are stable under extra loop fuel. -/
theorem jpsLoop_fuel_mono (g p : Pos → Bool) (h : Pos → Nat) (sf : Nat) :
    ∀ (f f' : Nat) (st : SearchState) (r : Option (List Pos)), f ≤ f' →
      jpsLoop g p h sf f st = some r → jpsLoop g p h sf f' st = some r := by
  intro f
  induction f with
  | zero =>
    intro f' st r _ hrun
    simp [jpsLoop] at hrun
  | succ f ih =>
    intro f' st r hle hrun
    obtain ⟨f'', rfl⟩ : ∃ f'', f' = f'' + 1 := ⟨f' - 1, by omega⟩
    cases hpop : MinHeap.pop st.openHeap with
    | none =>
      rw [jpsLoop_pop_none hpop] at hrun
      rw [jpsLoop_pop_none hpop]
      exact hrun
    | some x =>
      obtain ⟨⟨node, pri⟩, rest⟩ := x
      cases node with
      | goal gp =>
        rw [jpsLoop_pop_goal hpop] at hrun
        rw [jpsLoop_pop_goal hpop]
        cases hcp : construct_path st.parents (f + 1) gp with
        | none =>
          rw [hcp] at hrun
          simp at hrun
        | some path =>
          rw [hcp] at hrun
          rw [construct_path_mono st.parents (f + 1) (f'' + 1) gp path (by omega) hcp]
          exact hrun
      | jumpPoint curr =>
        rw [jpsLoop_pop_jp hpop] at hrun
        rw [jpsLoop_pop_jp hpop]
        cases hscan : curr.for_each_neighbor g p sf with
        | none =>
          rw [hscan] at hrun
          simp at hrun
        | some ns =>
          rw [hscan] at hrun
          exact ih f'' _ r (by omega) hrun

/-- With a finite passable region, the main loop does not depend on the scan
fuel once it is at least `S.card + 1`. -/
theorem jpsLoop_scanfuel_stable (g p : Pos → Bool) (h : Pos → Nat) (S : Finset Pos)
    (hP : ∀ q, p q = true → q ∈ S) (sf sf' : Nat)
    (hsf : S.card + 1 ≤ sf) (hsf' : S.card + 1 ≤ sf') :
    ∀ (f : Nat) (st : SearchState), jpsLoop g p h sf f st = jpsLoop g p h sf' f st := by
  intro f
  induction f with
  | zero => intro st; rfl
  | succ f ih =>
    intro st
    cases hpop : MinHeap.pop st.openHeap with
    | none => rw [jpsLoop_pop_none hpop, jpsLoop_pop_none hpop]
    | some x =>
      obtain ⟨⟨node, pri⟩, rest⟩ := x
      cases node with
      | goal gp => rw [jpsLoop_pop_goal hpop, jpsLoop_pop_goal hpop]
      | jumpPoint curr =>
        rw [jpsLoop_pop_jp hpop, jpsLoop_pop_jp hpop,
          for_each_neighbor_stable g p S hP curr sf sf' hsf hsf']
        cases hscan : curr.for_each_neighbor g p sf' with
        | none => rfl
        | some ns => exact ih _

/-! ### Cost bounds on finite regions -/

/-- The largest pairwise distance within the finite region. -/
def pairDist (S : Finset Pos) : Nat :=
  S.sup (fun a => S.sup (fun b => Pos.distance a b))

theorem dist_le_pairDist {S : Finset Pos} {a b : Pos} (ha : a ∈ S) (hb : b ∈ S) :
    Pos.distance a b ≤ pairDist S := by
  have h1 : Pos.distance a b ≤ S.sup (fun c => Pos.distance a c) :=
    Finset.le_sup (f := fun c => Pos.distance a c) hb
  have h2 : S.sup (fun c => Pos.distance a c) ≤ pairDist S :=
    Finset.le_sup (f := fun a => S.sup (fun c => Pos.distance a c)) ha
  exact le_trans h1 h2

/-- The set of region cells carrying a recorded cost. -/
def costDom (S : Finset Pos) (st : SearchState) : Finset Pos :=
  S.filter (fun q => (st.costs q).isSome)

/-- Recorded costs live inside the region and are bounded by the number of
costed cells times the region diameter. -/
def CostInv (S : Finset Pos) (st : SearchState) : Prop :=
  (∀ q, (st.costs q).isSome → q ∈ S) ∧
  (∀ q c, st.costs q = some c → c ≤ (costDom S st).card * pairDist S)

theorem costInv_global_bound {S : Finset Pos} {st : SearchState}
    (hci : CostInv S st) {q : Pos} {c : Nat} (hc : st.costs q = some c) :
    c ≤ S.card * pairDist S :=
  le_trans (hci.2 q c hc)
    (Nat.mul_le_mul_right _ (Finset.card_filter_le _ _))

/-- Processing one neighbor preserves the cost bounds. -/
theorem jpsVisit_costInv {S : Finset Pos} (h : Pos → Nat) (curr : JumpPoint)
    (st : SearchState) (n : OpenNode) (pc : Nat)
    (hci : CostInv S st) (hcurr : st.costs curr.pos = some pc) (hnS : n.pos ∈ S) :
    CostInv S (jpsVisit h curr st n) := by
  by_cases hskip : ∃ cost, st.costs n.pos = some cost ∧ cost < pc + n.pos.distance curr.pos
  · obtain ⟨cost, hc, hgt⟩ := hskip
    rw [jpsVisit_skip h curr st n pc cost hcurr hc hgt]
    exact hci
  · have hok : ∀ cost, st.costs n.pos = some cost → pc + n.pos.distance curr.pos ≤ cost := by
      intro cost hc
      by_contra hlt
      exact hskip ⟨cost, hc, by omega⟩
    rw [jpsVisit_push h curr st n pc hcurr hok]
    have hcurrS : curr.pos ∈ S := hci.1 curr.pos (by rw [hcurr]; rfl)
    have hd : n.pos.distance curr.pos ≤ pairDist S := dist_le_pairDist hnS hcurrS
    cases hc : st.costs n.pos with
    | some oldc =>
      -- overwrite with an equal-or-smaller value: the costed set is unchanged
      have hdom : costDom S { st with
          openHeap := MinHeap.push st.openHeap n (pc + n.pos.distance curr.pos + h n.pos)
          costs := updateMap st.costs n.pos (pc + n.pos.distance curr.pos)
          parents := updateMap st.parents n.pos curr } = costDom S st := by
        unfold costDom
        apply Finset.filter_congr
        intro q _
        by_cases hq : q = n.pos
        · subst hq
          simp [updateMap_self, hc]
        · simp [updateMap_ne _ _ _ hq]
      constructor
      · intro q hq
        by_cases hqn : q = n.pos
        · subst hqn
          exact hnS
        · rw [show ({ st with
              openHeap := MinHeap.push st.openHeap n (pc + n.pos.distance curr.pos + h n.pos)
              costs := updateMap st.costs n.pos (pc + n.pos.distance curr.pos)
              parents := updateMap st.parents n.pos curr } : SearchState).costs q =
            updateMap st.costs n.pos (pc + n.pos.distance curr.pos) q from rfl,
            updateMap_ne _ _ _ hqn] at hq
          exact hci.1 q hq
      · intro q c hqc
        rw [hdom]
        by_cases hqn : q = n.pos
        · subst hqn
          rw [show ({ st with
              openHeap := MinHeap.push st.openHeap n (pc + n.pos.distance curr.pos + h n.pos)
              costs := updateMap st.costs n.pos (pc + n.pos.distance curr.pos)
              parents := updateMap st.parents n.pos curr } : SearchState).costs n.pos =
            updateMap st.costs n.pos (pc + n.pos.distance curr.pos) n.pos from rfl,
            updateMap_self] at hqc
          injection hqc with h'
          have hold := hci.2 _ _ hc
          have := hok oldc hc
          omega
        · rw [show ({ st with
              openHeap := MinHeap.push st.openHeap n (pc + n.pos.distance curr.pos + h n.pos)
              costs := updateMap st.costs n.pos (pc + n.pos.distance curr.pos)
              parents := updateMap st.parents n.pos curr } : SearchState).costs q =
            updateMap st.costs n.pos (pc + n.pos.distance curr.pos) q from rfl,
            updateMap_ne _ _ _ hqn] at hqc
          exact hci.2 q c hqc
    | none =>
      -- fresh cell: the costed set grows by one
      have hnotmem : n.pos ∉ costDom S st := by
        unfold costDom
        rw [Finset.mem_filter]
        rintro ⟨_, hsome⟩
        rw [hc] at hsome
        exact Bool.noConfusion hsome
      have hdom : costDom S { st with
          openHeap := MinHeap.push st.openHeap n (pc + n.pos.distance curr.pos + h n.pos)
          costs := updateMap st.costs n.pos (pc + n.pos.distance curr.pos)
          parents := updateMap st.parents n.pos curr } =
          insert n.pos (costDom S st) := by
        unfold costDom
        ext q
        rw [Finset.mem_insert, Finset.mem_filter, Finset.mem_filter]
        by_cases hq : q = n.pos
        · subst hq
          simp [updateMap_self, hnS]
        · simp [updateMap_ne _ _ _ hq, hq]
      have hcard : (insert n.pos (costDom S st)).card = (costDom S st).card + 1 :=
        Finset.card_insert_of_not_mem hnotmem
      constructor
      · intro q hq
        by_cases hqn : q = n.pos
        · subst hqn
          exact hnS
        · rw [show ({ st with
              openHeap := MinHeap.push st.openHeap n (pc + n.pos.distance curr.pos + h n.pos)
              costs := updateMap st.costs n.pos (pc + n.pos.distance curr.pos)
              parents := updateMap st.parents n.pos curr } : SearchState).costs q =
            updateMap st.costs n.pos (pc + n.pos.distance curr.pos) q from rfl,
            updateMap_ne _ _ _ hqn] at hq
          exact hci.1 q hq
      · intro q c hqc
        rw [hdom, hcard]
        by_cases hqn : q = n.pos
        · subst hqn
          rw [show ({ st with
              openHeap := MinHeap.push st.openHeap n (pc + n.pos.distance curr.pos + h n.pos)
              costs := updateMap st.costs n.pos (pc + n.pos.distance curr.pos)
              parents := updateMap st.parents n.pos curr } : SearchState).costs n.pos =
            updateMap st.costs n.pos (pc + n.pos.distance curr.pos) n.pos from rfl,
            updateMap_self] at hqc
          injection hqc with h'
          have hpc := hci.2 _ _ hcurr
          have : c = pc + n.pos.distance curr.pos := h'.symm
          subst this
          calc pc + n.pos.distance curr.pos
              ≤ (costDom S st).card * pairDist S + pairDist S := by
                exact Nat.add_le_add hpc hd
            _ = ((costDom S st).card + 1) * pairDist S := by ring
        · rw [show ({ st with
              openHeap := MinHeap.push st.openHeap n (pc + n.pos.distance curr.pos + h n.pos)
              costs := updateMap st.costs n.pos (pc + n.pos.distance curr.pos)
              parents := updateMap st.parents n.pos curr } : SearchState).costs q =
            updateMap st.costs n.pos (pc + n.pos.distance curr.pos) q from rfl,
            updateMap_ne _ _ _ hqn] at hqc
          have := hci.2 q c hqc
          have hmono : (costDom S st).card * pairDist S ≤
              ((costDom S st).card + 1) * pairDist S := by
            apply Nat.mul_le_mul_right
            omega
          omega

/-! ### The termination measures -/

/-- First measure: total of recorded costs over the region, with `B + 1` for
cells not yet costed. Strictly decreases whenever the cost map changes. -/
def phiCost (S : Finset Pos) (B : Nat) (st : SearchState) : Nat :=
  S.sum (fun q => (st.costs q).getD (B + 1))

/-- Second measure, over an explicit cost map and heap: geometric weights by
remaining cost headroom, so that expanding one node strictly shrinks it when
no recorded cost changes. -/
def phiHeapOf (C B : Nat) (costs : Pos → Option Nat) (heap : MinHeap OpenNode) : Nat :=
  (heap.map (fun y => C ^ (B + 1 - (costs y.1.pos).getD 0))).sum

def phiHeap (C B : Nat) (st : SearchState) : Nat :=
  phiHeapOf C B st.costs st.openHeap

theorem sum_getD_update_le (S : Finset Pos) (B : Nat) (costs : Pos → Option Nat)
    (k : Pos) (v : Nat) (hk : k ∈ S) (hv : v ≤ (costs k).getD (B + 1)) :
    S.sum (fun q => (updateMap costs k v q).getD (B + 1)) ≤
      S.sum (fun q => (costs q).getD (B + 1)) := by
  rw [← Finset.sum_erase_add S _ hk, ← Finset.sum_erase_add S
    (fun q => (costs q).getD (B + 1)) hk]
  have heq : (S.erase k).sum (fun q => (updateMap costs k v q).getD (B + 1)) =
      (S.erase k).sum (fun q => (costs q).getD (B + 1)) :=
    Finset.sum_congr rfl (fun q hq => by
      rw [updateMap_ne _ _ _ (Finset.ne_of_mem_erase hq)])
  rw [heq, updateMap_self]
  have : (some v).getD (B + 1) = v := rfl
  omega

theorem sum_getD_update_lt (S : Finset Pos) (B : Nat) (costs : Pos → Option Nat)
    (k : Pos) (v : Nat) (hk : k ∈ S) (hv : v < (costs k).getD (B + 1)) :
    S.sum (fun q => (updateMap costs k v q).getD (B + 1)) <
      S.sum (fun q => (costs q).getD (B + 1)) := by
  rw [← Finset.sum_erase_add S _ hk, ← Finset.sum_erase_add S
    (fun q => (costs q).getD (B + 1)) hk]
  have heq : (S.erase k).sum (fun q => (updateMap costs k v q).getD (B + 1)) =
      (S.erase k).sum (fun q => (costs q).getD (B + 1)) :=
    Finset.sum_congr rfl (fun q hq => by
      rw [updateMap_ne _ _ _ (Finset.ne_of_mem_erase hq)])
  rw [heq, updateMap_self]
  have : (some v).getD (B + 1) = v := rfl
  omega

theorem phiCost_congr (S : Finset Pos) (B : Nat) {st st' : SearchState}
    (h : ∀ q, st'.costs q = st.costs q) : phiCost S B st' = phiCost S B st :=
  Finset.sum_congr rfl (fun q _ => by rw [h q])

/-- The trichotomy of one neighbor visit: the state is unchanged (discard), or
only the heap grows by one node whose position already carries exactly the new
cost (tie), or the first measure strictly drops (fresh or improved cost). -/
theorem jpsVisit_tri (S : Finset Pos) (h : Pos → Nat) (curr : JumpPoint)
    (st : SearchState) (n : OpenNode) (pc : Nat)
    (hci : CostInv S st) (hcurr : st.costs curr.pos = some pc)
    (hnS : n.pos ∈ S) (hne : n.pos ≠ curr.pos) :
    CostInv S (jpsVisit h curr st n) ∧
    (jpsVisit h curr st n).costs curr.pos = some pc ∧
    (jpsVisit h curr st n = st ∨
      ((∀ q, (jpsVisit h curr st n).costs q = st.costs q) ∧
        ∃ pri, (jpsVisit h curr st n).openHeap = st.openHeap ++ [(n, pri)] ∧
          st.costs n.pos = some (pc + n.pos.distance curr.pos)) ∨
      phiCost S (S.card * pairDist S) (jpsVisit h curr st n) <
        phiCost S (S.card * pairDist S) st) := by
  refine ⟨jpsVisit_costInv h curr st n pc hci hcurr hnS, ?_, ?_⟩
  · by_cases hskip : ∃ cost, st.costs n.pos = some cost ∧
        cost < pc + n.pos.distance curr.pos
    · obtain ⟨cost, hc, hgt⟩ := hskip
      rw [jpsVisit_skip h curr st n pc cost hcurr hc hgt]
      exact hcurr
    · have hok : ∀ cost, st.costs n.pos = some cost →
          pc + n.pos.distance curr.pos ≤ cost := by
        intro cost hc
        by_contra hlt
        exact hskip ⟨cost, hc, by omega⟩
      rw [jpsVisit_push h curr st n pc hcurr hok]
      show updateMap st.costs n.pos _ curr.pos = some pc
      rw [updateMap_ne _ _ _ (Ne.symm hne)]
      exact hcurr
  · by_cases hskip : ∃ cost, st.costs n.pos = some cost ∧
        cost < pc + n.pos.distance curr.pos
    · obtain ⟨cost, hc, hgt⟩ := hskip
      exact Or.inl (jpsVisit_skip h curr st n pc cost hcurr hc hgt)
    · have hok : ∀ cost, st.costs n.pos = some cost →
          pc + n.pos.distance curr.pos ≤ cost := by
        intro cost hc
        by_contra hlt
        exact hskip ⟨cost, hc, by omega⟩
      have hpush := jpsVisit_push h curr st n pc hcurr hok
      cases hc : st.costs n.pos with
      | some oldc =>
        by_cases heqc : pc + n.pos.distance curr.pos = oldc
        · -- a tie: the overwrite does not change the cost map pointwise
          refine Or.inr (Or.inl ⟨?_, ?_⟩)
          · intro q
            rw [hpush]
            show updateMap st.costs n.pos (pc + n.pos.distance curr.pos) q = st.costs q
            by_cases hq : q = n.pos
            · subst hq
              rw [updateMap_self, hc, heqc]
            · rw [updateMap_ne _ _ _ hq]
          · refine ⟨pc + n.pos.distance curr.pos + h n.pos, ?_, ?_⟩
            · rw [hpush]
              rfl
            · rw [heqc]
        · -- strictly improved cost
          refine Or.inr (Or.inr ?_)
          have hlt : pc + n.pos.distance curr.pos <
              (st.costs n.pos).getD (S.card * pairDist S + 1) := by
            rw [hc]
            have := hok oldc hc
            show pc + n.pos.distance curr.pos < oldc
            omega
          rw [hpush]
          exact sum_getD_update_lt S _ st.costs n.pos _ hnS hlt
      | none =>
        -- a fresh cell: its default weight B + 1 drops to the new cost ≤ B
        refine Or.inr (Or.inr ?_)
        have hciNew := jpsVisit_costInv h curr st n pc hci hcurr hnS
        have hrec : (jpsVisit h curr st n).costs n.pos =
            some (pc + n.pos.distance curr.pos) := by
          rw [hpush]
          exact updateMap_self _ _ _
        have hBle : pc + n.pos.distance curr.pos ≤ S.card * pairDist S :=
          costInv_global_bound hciNew hrec
        have hlt : pc + n.pos.distance curr.pos <
            (st.costs n.pos).getD (S.card * pairDist S + 1) := by
          rw [hc]
          show pc + n.pos.distance curr.pos < S.card * pairDist S + 1
          omega
        rw [hpush]
        exact sum_getD_update_lt S _ st.costs n.pos _ hnS hlt

/-- Folding one scan's emissions: either some recorded cost strictly improved
(first measure drops), or the cost map is untouched and the heap only gained
nodes whose positions already carry cost `pc + d` with `d ≥ 1`. -/
theorem fold_tri (S : Finset Pos) (h : Pos → Nat) (curr : JumpPoint) (pc : Nat) :
    ∀ (ns : List OpenNode) (st : SearchState),
      CostInv S st → st.costs curr.pos = some pc →
      (∀ n ∈ ns, n.pos ∈ S ∧ n.pos ≠ curr.pos) →
      CostInv S (ns.foldl (jpsVisit h curr) st) ∧
      (ns.foldl (jpsVisit h curr) st).costs curr.pos = some pc ∧
      phiCost S (S.card * pairDist S) (ns.foldl (jpsVisit h curr) st) ≤
        phiCost S (S.card * pairDist S) st ∧
      (phiCost S (S.card * pairDist S) (ns.foldl (jpsVisit h curr) st) <
          phiCost S (S.card * pairDist S) st ∨
        ((∀ q, (ns.foldl (jpsVisit h curr) st).costs q = st.costs q) ∧
          ∃ pushed, (ns.foldl (jpsVisit h curr) st).openHeap = st.openHeap ++ pushed ∧
            pushed.length ≤ ns.length ∧
            ∀ y ∈ pushed, ∃ dd, 1 ≤ dd ∧ st.costs y.1.pos = some (pc + dd))) := by
  intro ns
  induction ns with
  | nil =>
    intro st hci hcurr _
    refine ⟨hci, hcurr, le_refl _, Or.inr ⟨fun q => rfl, [], ?_, ?_, ?_⟩⟩
    · simp
    · exact le_refl _
    · intro y hy
      simp at hy
  | cons n ns ih =>
    intro st hci hcurr hprops
    obtain ⟨hnS, hnne⟩ := hprops n (List.mem_cons_self n ns)
    obtain ⟨hci1, hcurr1, htri⟩ := jpsVisit_tri S h curr st n pc hci hcurr hnS hnne
    have hrest : ∀ m ∈ ns, m.pos ∈ S ∧ m.pos ≠ curr.pos :=
      fun m hm => hprops m (List.mem_cons_of_mem n hm)
    obtain ⟨hciF, hcurrF, hleF, hdisjF⟩ := ih (jpsVisit h curr st n) hci1 hcurr1 hrest
    rw [List.foldl_cons]
    cases htri with
    | inl hsame =>
      rw [hsame] at hciF hcurrF hleF hdisjF ⊢
      refine ⟨hciF, hcurrF, hleF, ?_⟩
      cases hdisjF with
      | inl hlt => exact Or.inl hlt
      | inr hunch =>
        obtain ⟨hpt, pushed, hheap, hlen, helem⟩ := hunch
        refine Or.inr ⟨hpt, pushed, hheap, ?_, helem⟩
        simp only [List.length_cons]
        omega
    | inr htri2 =>
      cases htri2 with
      | inl hmid =>
        obtain ⟨hpt, pri, hheap, hval⟩ := hmid
        have hphi1 : phiCost S (S.card * pairDist S) (jpsVisit h curr st n) =
            phiCost S (S.card * pairDist S) st := phiCost_congr S _ hpt
        refine ⟨hciF, hcurrF, by omega, ?_⟩
        cases hdisjF with
        | inl hlt => exact Or.inl (by omega)
        | inr hunch =>
          obtain ⟨hptF, pushed, hheapF, hlenF, helemF⟩ := hunch
          refine Or.inr ⟨fun q => by rw [hptF q, hpt q], (n, pri) :: pushed, ?_, ?_, ?_⟩
          · rw [hheapF, hheap, List.append_assoc]
            rfl
          · simp only [List.length_cons]
            omega
          · intro y hy
            cases hy with
            | head =>
              exact ⟨n.pos.distance curr.pos, Pos.one_le_distance_of_ne hnne, hval⟩
            | tail _ hy' =>
              obtain ⟨dd, hdd, hvy⟩ := helemF y hy'
              exact ⟨dd, hdd, by rw [← hpt y.1.pos]; exact hvy⟩
      | inr hlt1 =>
        refine ⟨hciF, hcurrF, by omega, Or.inl (by omega)⟩

theorem leafscan_length (g p : Pos → Bool) (root : Pos) (dir : Direction) :
    ∀ (fuel len : Nat) (ns : List OpenNode),
      for_each_leaf_neighbor g p root dir fuel len = some ns →
      ns.length ≤ 2 * fuel + 1 := by
  intro fuel
  induction fuel with
  | zero =>
    intro len ns h
    simp [for_each_leaf_neighbor] at h
  | succ fuel ih =>
    intro len ns h
    cases hp : p (root + dir.scale (len : Int)) with
    | false =>
      rw [for_each_leaf_neighbor_impassable hp] at h
      injection h with h'
      rw [← h']
      simp
    | true =>
      cases hg : g (root + dir.scale (len : Int)) with
      | true =>
        rw [for_each_leaf_neighbor_goal hp hg] at h
        injection h with h'
        rw [← h']
        simp
      | false =>
        rw [for_each_leaf_neighbor_interior hp hg] at h
        cases hrec : for_each_leaf_neighbor g p root dir fuel (len + 1) with
        | none =>
          rw [hrec] at h
          simp at h
        | some rest =>
          rw [hrec] at h
          simp only [Option.map_some', Option.some.injEq] at h
          have hrest := ih (len + 1) rest hrec
          rw [← h]
          rw [List.length_append, List.length_append]
          have h1 : (if (JumpPoint.neighbor_of (root + dir.scale (len : Int)) dir
              Chirality.clockwise).is_forced p then
              [OpenNode.jumpPoint (JumpPoint.neighbor_of (root + dir.scale (len : Int)) dir
                Chirality.clockwise)] else []).length ≤ 1 := by
            split_ifs <;> simp
          have h2 : (if (JumpPoint.neighbor_of (root + dir.scale (len : Int)) dir
              Chirality.counterclockwise).is_forced p then
              [OpenNode.jumpPoint (JumpPoint.neighbor_of (root + dir.scale (len : Int)) dir
                Chirality.counterclockwise)] else []).length ≤ 1 := by
            split_ifs <;> simp
          omega

theorem stemscan_length (g p : Pos → Bool) (jp : JumpPoint) (lf : Nat) :
    ∀ (fuel len : Nat) (ns : List OpenNode),
      jp.for_each_neighbor_from g p lf fuel len = some ns →
      ns.length ≤ fuel * (2 * lf + 3) + 1 := by
  intro fuel
  induction fuel with
  | zero =>
    intro len ns h
    simp [JumpPoint.for_each_neighbor_from] at h
  | succ fuel ih =>
    intro len ns h
    cases hp : p (jp.pos + jp.direction.scale (len : Int)) with
    | false =>
      rw [for_each_neighbor_from_impassable hp] at h
      injection h with h'
      rw [← h']
      simp
    | true =>
      cases hg : g (jp.pos + jp.direction.scale (len : Int)) with
      | true =>
        rw [for_each_neighbor_from_goal hp hg] at h
        injection h with h'
        rw [← h']
        simp
      | false =>
        rw [for_each_neighbor_from_interior hp hg] at h
        cases hleaf : for_each_leaf_neighbor g p (jp.pos + jp.direction.scale (len : Int))
            (jp.chirality.rotate jp.direction 1) lf 1 with
        | none =>
          rw [hleaf] at h
          simp at h
        | some leafNodes =>
          rw [hleaf] at h
          cases hrec : jp.for_each_neighbor_from g p lf fuel (len + 1) with
          | none =>
            rw [hrec] at h
            simp at h
          | some rest =>
            rw [hrec] at h
            simp only [Option.map_some', Option.some.injEq] at h
            have hrest := ih (len + 1) rest hrec
            have hlf := leafscan_length g p _ _ lf 1 leafNodes hleaf
            rw [← h]
            rw [List.length_append, List.length_append]
            have h1 : (if (JumpPoint.neighbor_of (jp.pos + jp.direction.scale (len : Int))
                jp.direction jp.chirality).is_forced p then
                [OpenNode.jumpPoint (JumpPoint.neighbor_of
                  (jp.pos + jp.direction.scale (len : Int)) jp.direction jp.chirality)]
                else []).length ≤ 1 := by
              split_ifs <;> simp
            have hmul : (fuel + 1) * (2 * lf + 3) = fuel * (2 * lf + 3) + (2 * lf + 3) := by
              ring
            omega

/-- Total emission bound for a full neighbor scan. -/
theorem for_each_neighbor_length (g p : Pos → Bool) (jp : JumpPoint) (sf : Nat)
    (ns : List OpenNode) (h : jp.for_each_neighbor g p sf = some ns) :
    ns.length ≤ sf * (2 * sf + 3) + 1 :=
  stemscan_length g p jp sf sf 1 ns h

theorem phiHeapOf_append (C B : Nat) (costs : Pos → Option Nat)
    (l1 l2 : MinHeap OpenNode) :
    phiHeapOf C B costs (l1 ++ l2) = phiHeapOf C B costs l1 + phiHeapOf C B costs l2 := by
  unfold phiHeapOf
  rw [List.map_append, List.sum_append]

theorem phiHeapOf_perm (C B : Nat) (costs : Pos → Option Nat)
    {l1 l2 : MinHeap OpenNode} (hperm : l1.Perm l2) :
    phiHeapOf C B costs l1 = phiHeapOf C B costs l2 :=
  (hperm.map _).sum_eq

theorem phiHeapOf_congr (C B : Nat) {costs costs' : Pos → Option Nat}
    (h : ∀ q, costs' q = costs q) (l : MinHeap OpenNode) :
    phiHeapOf C B costs' l = phiHeapOf C B costs l := by
  unfold phiHeapOf
  have hfun : (fun y : OpenNode × Nat => C ^ (B + 1 - (costs' y.1.pos).getD 0)) =
      (fun y : OpenNode × Nat => C ^ (B + 1 - (costs y.1.pos).getD 0)) :=
    funext (fun y => by rw [h])
  rw [hfun]

theorem list_sum_le_length_mul (l : List Nat) (b : Nat) (h : ∀ x ∈ l, x ≤ b) :
    l.sum ≤ l.length * b := by
  induction l with
  | nil => simp
  | cons x l ih =>
    rw [List.sum_cons, List.length_cons]
    have hx := h x (List.mem_cons_self x l)
    have hl := ih (fun y hy => h y (List.mem_cons_of_mem x hy))
    have : (l.length + 1) * b = l.length * b + b := by ring
    omega

/-- The second measure strictly drops when a jump point is popped and the cost
map is unchanged: the popped node's weight exceeds the combined weight of the
finitely many pushed nodes, each of which sits at least one distance unit
deeper. -/
theorem phiHeap_pop_decrease (C B : Nat) (hC : 1 ≤ C) (st st' : SearchState)
    (curr : JumpPoint) (pri : Nat) (rest pushed : MinHeap OpenNode) (pc : Nat)
    (hpop : MinHeap.pop st.openHeap = some ((OpenNode.jumpPoint curr, pri), rest))
    (hpt : ∀ q, st'.costs q = st.costs q)
    (hheap : st'.openHeap = rest ++ pushed)
    (hcurr : st.costs curr.pos = some pc)
    (hpcB : pc ≤ B)
    (hpushed : ∀ y ∈ pushed, ∃ dd, 1 ≤ dd ∧ st.costs y.1.pos = some (pc + dd))
    (hlenC : pushed.length < C) :
    phiHeap C B st' < phiHeap C B st := by
  have hsplit : phiHeap C B st = C ^ (B + 1 - pc) + phiHeapOf C B st.costs rest := by
    unfold phiHeap
    rw [phiHeapOf_perm C B st.costs (MinHeap.pop_perm _ _ _ hpop)]
    unfold phiHeapOf
    rw [List.map_cons, List.sum_cons]
    have hkey : (st.costs (OpenNode.jumpPoint curr, pri).1.pos).getD 0 = pc := by
      rw [show (OpenNode.jumpPoint curr, pri).1.pos = curr.pos from rfl, hcurr]
      rfl
    rw [hkey]
  have hsplit' : phiHeap C B st' = phiHeapOf C B st.costs rest +
      phiHeapOf C B st.costs pushed := by
    unfold phiHeap
    rw [phiHeapOf_congr C B hpt, hheap, phiHeapOf_append]
  have hterm : ∀ x ∈ (pushed.map
      (fun y => C ^ (B + 1 - (st.costs y.1.pos).getD 0))), x ≤ C ^ (B - pc) := by
    intro x hx
    rw [List.mem_map] at hx
    obtain ⟨y, hy, hxy⟩ := hx
    obtain ⟨dd, hdd, hvy⟩ := hpushed y hy
    rw [← hxy, hvy]
    have hexp : B + 1 - (some (pc + dd) : Option Nat).getD 0 ≤ B - pc := by
      show B + 1 - (pc + dd) ≤ B - pc
      omega
    exact Nat.pow_le_pow_right hC hexp
  have hsum : phiHeapOf C B st.costs pushed ≤ pushed.length * C ^ (B - pc) := by
    unfold phiHeapOf
    have := list_sum_le_length_mul _ (C ^ (B - pc)) hterm
    rw [List.length_map] at this
    exact this
  have hstrict : pushed.length * C ^ (B - pc) < C ^ (B + 1 - pc) := by
    have hpow : C ^ (B + 1 - pc) = C ^ (B - pc) * C := by
      rw [show B + 1 - pc = (B - pc) + 1 from by omega, Nat.pow_succ]
    rw [hpow]
    have hpos : 0 < C ^ (B - pc) := Nat.pos_pow_of_pos _ (by omega)
    calc pushed.length * C ^ (B - pc) < C * C ^ (B - pc) :=
          Nat.mul_lt_mul_of_lt_of_le hlenC (le_refl _) hpos
      _ = C ^ (B - pc) * C := by ring
  omega

def scanFuelOf (S : Finset Pos) : Nat := S.card + 1

def emitBound (S : Finset Pos) : Nat := scanFuelOf S * (2 * scanFuelOf S + 3) + 1

def heapBase (S : Finset Pos) : Nat := emitBound S + 1

def costBound (S : Finset Pos) : Nat := S.card * pairDist S

/-- With a finite passable region, the main loop finishes within some fuel:
lexicographic induction on (total recorded cost headroom, geometric heap
weight). -/
theorem jpsLoop_finite_some {origin : Pos} {g p : Pos → Bool} (h : Pos → Nat)
    (S : Finset Pos) (hP : ∀ q, p q = true → q ∈ S) :
    ∀ (n1 n2 : Nat) (st : SearchState),
      SearchInv origin g p st → CostInv S st →
      phiCost S (costBound S) st = n1 →
      phiHeap (heapBase S) (costBound S) st = n2 →
      ∃ f r, jpsLoop g p h (scanFuelOf S) f st = some r := by
  intro n1
  induction n1 using Nat.strong_induction_on with
  | _ n1 ih1 =>
    intro n2
    induction n2 using Nat.strong_induction_on with
    | _ n2 ih2 =>
      intro st inv hci hphi1 hphi2
      cases hpop : MinHeap.pop st.openHeap with
      | none => exact ⟨1, none, jpsLoop_pop_none hpop⟩
      | some x =>
        obtain ⟨⟨node, pri⟩, rest⟩ := x
        cases node with
        | goal gp =>
          obtain ⟨_, _, hcs⟩ := inv.queue_goal gp pri (mem_of_pop_rest hpop).2
          obtain ⟨cc, hcc⟩ := Option.isSome_iff_exists.mp hcs
          obtain ⟨f, path, hcp⟩ := construct_path_terminates st inv cc gp hcc
          refine ⟨f + 1, some path, ?_⟩
          rw [jpsLoop_pop_goal hpop,
            construct_path_mono st.parents f (f + 1) gp path (by omega) hcp]
          rfl
        | jumpPoint curr =>
          obtain ⟨ns, hscan⟩ :=
            for_each_neighbor_terminates g p S hP curr (scanFuelOf S) (le_refl _)
          obtain ⟨hcs, _⟩ := inv.queue_jp curr pri (mem_of_pop_rest hpop).2
          obtain ⟨pc, hpc⟩ := Option.isSome_iff_exists.mp hcs
          have hpcmid : ({ st with openHeap := rest } : SearchState).costs curr.pos =
            some pc := hpc
          have hcimid : CostInv S { st with openHeap := rest } := hci
          have hprops : ∀ n ∈ ns, n.pos ∈ S ∧ n.pos ≠ curr.pos := by
            intro n hn
            obtain ⟨_, _, _, _, _, hpass, _, hne, _⟩ :=
              for_each_neighbor_sound g p curr (scanFuelOf S) ns hscan n hn
            exact ⟨hP _ hpass, hne⟩
          obtain ⟨hciF, hcurrF, hleF, hdisjF⟩ :=
            fold_tri S h curr pc ns { st with openHeap := rest } hcimid hpcmid hprops
          have hinv' : SearchInv origin g p
              (ns.foldl (jpsVisit h curr) { st with openHeap := rest }) :=
            jpsStep_inv h (scanFuelOf S) st curr pri rest ns inv hpop hscan
          have hphimid : phiCost S (costBound S) ({ st with openHeap := rest }) =
              phiCost S (costBound S) st := rfl
          cases hdisjF with
          | inl hlt =>
            have hlt1 : phiCost S (costBound S)
                (ns.foldl (jpsVisit h curr) { st with openHeap := rest }) < n1 := by
              rw [← hphi1, ← hphimid]
              exact hlt
            obtain ⟨f, r, hrun⟩ := ih1 _ hlt1 _
              (ns.foldl (jpsVisit h curr) { st with openHeap := rest })
              hinv' hciF rfl rfl
            refine ⟨f + 1, r, ?_⟩
            rw [jpsLoop_pop_jp hpop, hscan]
            exact hrun
          | inr hunch =>
            obtain ⟨hpt, pushed, hheap, hlen, helem⟩ := hunch
            have hphi1' : phiCost S (costBound S)
                (ns.foldl (jpsVisit h curr) { st with openHeap := rest }) = n1 := by
              rw [← hphi1, ← hphimid]
              exact phiCost_congr S _ hpt
            have hlen2 : pushed.length < heapBase S := by
              have := for_each_neighbor_length g p curr (scanFuelOf S) ns hscan
              unfold heapBase emitBound
              omega
            have hphi2' : phiHeap (heapBase S) (costBound S)
                (ns.foldl (jpsVisit h curr) { st with openHeap := rest }) <
                phiHeap (heapBase S) (costBound S) st := by
              apply phiHeap_pop_decrease (heapBase S) (costBound S)
                (by unfold heapBase; omega) st _ curr pri rest pushed pc hpop
                hpt hheap hpc (costInv_global_bound hci hpc) helem hlen2
            have hlt2 : phiHeap (heapBase S) (costBound S)
                (ns.foldl (jpsVisit h curr) { st with openHeap := rest }) < n2 := by
              rw [← hphi2]
              exact hphi2'
            obtain ⟨f, r, hrun⟩ := ih2 _ hlt2
              (ns.foldl (jpsVisit h curr) { st with openHeap := rest })
              hinv' hciF hphi1' rfl
            refine ⟨f + 1, r, ?_⟩
            rw [jpsLoop_pop_jp hpop, hscan]
            exact hrun

/-- C3 (amended): every invocation of `jps` whose passable predicate holds only
within a finite set of positions runs to completion — for some fuel bound the
embedded loops all exit, and the search returns either a path or the no-path
result after exhausting its frontier. (As stated over all passability tests the
claim fails: an unbounded passable region makes the scans diverge.) -/
theorem C3_terminates_on_finite_regions (origin : Pos) (g p : Pos → Bool)
    (h : Pos → Nat) (flip : Bool) (S : Finset Pos)
    (hP : ∀ q, p q = true → q ∈ S) :
    ∃ (fuel : Nat) (r : Option (List Pos)), jps origin g p h flip fuel = some r := by
  cases hog : g origin with
  | true => exact ⟨0, some [origin], by simp [jps, hog]⟩
  | false =>
    have hP' : ∀ q, p q = true → q ∈ insert origin S :=
      fun q hq => Finset.mem_insert_of_mem (hP q hq)
    have hCI : CostInv (insert origin S) (initialState origin h flip) := by
      constructor
      · intro q hq
        by_cases hqo : q = origin
        · subst hqo
          exact Finset.mem_insert_self _ _
        · rw [show (initialState origin h flip).costs q =
            updateMap (fun _ => none) origin 0 q from rfl,
            updateMap_ne _ _ _ hqo] at hq
          exact Bool.noConfusion hq
      · intro q c hqc
        by_cases hqo : q = origin
        · rw [hqo] at hqc
          rw [show (initialState origin h flip).costs origin =
            updateMap (fun _ => none) origin 0 origin from rfl,
            updateMap_self] at hqc
          injection hqc with h'
          omega
        · rw [show (initialState origin h flip).costs q =
            updateMap (fun _ => none) origin 0 q from rfl,
            updateMap_ne _ _ _ hqo] at hqc
          exact Option.noConfusion hqc
    obtain ⟨f, r, hrun⟩ := jpsLoop_finite_some h (insert origin S) hP'
      (phiCost (insert origin S) (costBound (insert origin S))
        (initialState origin h flip))
      (phiHeap (heapBase (insert origin S)) (costBound (insert origin S))
        (initialState origin h flip))
      (initialState origin h flip) (initialState_inv origin g p h flip) hCI rfl rfl
    refine ⟨max (scanFuelOf (insert origin S)) f, r, ?_⟩
    have hjps : jps origin g p h flip (max (scanFuelOf (insert origin S)) f) =
        jpsLoop g p h (max (scanFuelOf (insert origin S)) f)
          (max (scanFuelOf (insert origin S)) f) (initialState origin h flip) := by
      simp [jps, hog]
    rw [hjps, jpsLoop_scanfuel_stable g p h (insert origin S) hP'
      (max (scanFuelOf (insert origin S)) f) (scanFuelOf (insert origin S))
      (le_max_left _ _) (le_refl _)]
    exact jpsLoop_fuel_mono g p h (scanFuelOf (insert origin S)) f
      (max (scanFuelOf (insert origin S)) f) (initialState origin h flip) r
      (le_max_right _ _) hrun

theorem C3_witness :
    ∃ (fuel : Nat) (r : Option (List Pos)),
      jps ⟨0, 0⟩ (fun _ => false) (fun _ => false) (fun _ => 0) false fuel = some r :=
  C3_terminates_on_finite_regions ⟨0, 0⟩ (fun _ => false) (fun _ => false)
    (fun _ => 0) false ∅ (fun _ hq => Bool.noConfusion hq)
